import Mathlib

/-!
# cmdse-cli `argparse/token.go`: token classification by adjacency inference

A shallow embedding of `src/argparse/token.go`.

* A Go `*Token` is identified with the slot it occupies in its owning
  `TokenList` (a slice of pointers); the pointer field `boundTo` is therefore
  the index of the slot pointed at.
* The back-reference `token.tokens` is passed explicitly as the first argument
  of every method.
* A method that mutates its receiver returns the receiver's new state.
* A runtime panic of an index expression `tokens[i]` is `Except.error
  Fault.OutOfRange`; every other path returns `Except.ok`.
-/

namespace Argparse

/-! ## Declarations used by `token.go` -/

/-- Modelled from the spec: the enumeration `Binding` (its declaration is not in
`token.go`). Spec §3: "enumerated value: `NONE`, `LEFT`, `RIGHT`". -/
inductive Binding
  | NONE
  | LEFT
  | RIGHT
deriving DecidableEq, Repr

/-- Modelled from the spec: `Bindings`, the argument of `IsBoundToOneOf`, written
`Bindings{NONE, LEFT}` in `token.go`; its declaration is not in `token.go`. -/
abbrev Bindings := List Binding

/-- Modelled from the spec: `Bindings.Contains`, "membership in a set of
acceptable bindings" (spec §4.3); its declaration is not in `token.go`. -/
def Bindings.Contains (bindings : Bindings) (binding : Binding) : Bool :=
  bindings.elem binding

/-- Modelled from the spec: `PositionalModel`, the "attributes of a semantic
type: `binding: Binding`, `isOption: bool`" (spec §3); its declaration is not in
`token.go`. -/
structure PositionalModel where
  Binding : Binding
  IsOption : Bool
deriving DecidableEq, Repr

/-- Modelled from the spec: `SemanticTokenType`, "a named variant carrying a
`PositionalModel`" (spec §3); its declaration is not in `token.go`. -/
structure SemanticTokenType where
  name : String
  posModel : PositionalModel
deriving DecidableEq, Repr

/-- The method `PosModel()` of a semantic token type. -/
def SemanticTokenType.PosModel (t : SemanticTokenType) : PositionalModel :=
  t.posModel

/-- Modelled from the spec: the built-in semantic type `OPERAND`, "binding =
NONE, isOption = false" (spec §3); its declaration is not in `token.go`. -/
def OPERAND : SemanticTokenType :=
  { name := "OPERAND", posModel := { Binding := Binding.NONE, IsOption := false } }

/-- Modelled from the spec: the interface `TokenType` with its two
implementations `*ContextFreeTokenType` and `*SemanticTokenType` (spec §3,
`TokenKind`: `ContextFree` or `Semantic(SemanticType)`); the declarations are
not in `token.go`. The type switch `case *ContextFreeTokenType` selects the first
constructor. The test `ttype.PosModel().Equal(&UNSET)` of `token.go` is modelled
from the spec as well: `UNSET` is the "sentinel model used for comparison,
representing not yet resolved to a concrete semantic type" (spec §3), so the
test holds exactly for `ContextFree`, and the methods below match on the
constructor for it. -/
inductive TokenType
  | ContextFree
  | Semantic (t : SemanticTokenType)
deriving DecidableEq, Repr

/-- The method `IsSemantic()` of a token type. -/
def TokenType.IsSemantic : TokenType → Bool
  | TokenType.ContextFree => false
  | TokenType.Semantic _ => true

/-! ## `Token` -/

/-- The struct `Token` (token.go:10-17). `boundTo` holds the index, in the owning
list, of the token pointed at; the field `tokens` is passed to each method. -/
structure Token where
  argumentPosition : Int
  ttype : TokenType
  value : String
  boundTo : Option Int
  semanticCandidates : List SemanticTokenType
deriving DecidableEq, Repr

/-- The slice type `TokenList`. -/
abbrev TokenList := List Token

/-- A Go runtime panic raised by the code of `token.go`. -/
inductive Fault
  | OutOfRange
deriving DecidableEq, Repr

deriving instance DecidableEq for Except

/-- The index expression `tokens[i]` for a Go `int` index: it panics when `i` is
negative or not below `len(tokens)`. -/
def TokenList.index (tokens : TokenList) (i : Int) : Except Fault Token :=
  if i < 0 then Except.error Fault.OutOfRange
  else
    match tokens.get? i.toNat with
    | some t => Except.ok t
    | none => Except.error Fault.OutOfRange

/-- The method `possiblyConvertToSemantic` (token.go:19-30). -/
def Token.possiblyConvertToSemantic (tokens : TokenList) (token : Token) :
    Except Fault Token :=
  match token.semanticCandidates with
  | [semanticType] =>
    let token1 : Token := { token with ttype := TokenType.Semantic semanticType }
    (if semanticType.PosModel.Binding = Binding.RIGHT then
        (tokens.index (token1.argumentPosition + 1)).map
          (fun _ => { token1 with boundTo := some (token1.argumentPosition + 1) })
      else Except.ok token1) >>= fun token2 =>
    (if semanticType.PosModel.Binding = Binding.LEFT then
        (tokens.index (token2.argumentPosition - 1)).map
          (fun _ => { token2 with boundTo := some (token2.argumentPosition - 1) })
      else Except.ok token2)
  | _ => Except.ok token

/-- The loop of `reduceCandidates` (token.go:34-39): `newCandidates` starts empty
and receives, in order, each candidate that satisfies `pred`. -/
def reduceLoop (pred : SemanticTokenType → Bool) (cands : List SemanticTokenType) :
    List SemanticTokenType :=
  cands.foldl (fun newCandidates candidate =>
    if pred candidate then newCandidates ++ [candidate] else newCandidates) []

/-- The method `reduceCandidates` (token.go:33-42). -/
def Token.reduceCandidates (tokens : TokenList) (token : Token)
    (pred : SemanticTokenType → Bool) : Except Fault Token :=
  Token.possiblyConvertToSemantic tokens
    { token with semanticCandidates := reduceLoop pred token.semanticCandidates }

/-- The method `setCandidate` (token.go:44-47). -/
def Token.setCandidate (tokens : TokenList) (token : Token)
    (tokenType : SemanticTokenType) : Except Fault Token :=
  Token.possiblyConvertToSemantic tokens
    { token with semanticCandidates := [tokenType] }

/-- The loop of `IsBoundTo` (token.go:53-58) with the current value of `isBound`. -/
def isBoundToLoop (binding : Binding) : List SemanticTokenType → Bool → Bool
  | [], isBound => isBound
  | semToken :: rest, isBound =>
    if semToken.PosModel.Binding ≠ binding then false
    else isBoundToLoop binding rest isBound

/-- The method `IsBoundTo` (token.go:49-63). -/
def Token.IsBoundTo (token : Token) (binding : Binding) : Bool :=
  match token.ttype with
  | TokenType.ContextFree => isBoundToLoop binding token.semanticCandidates true
  | TokenType.Semantic ttype => decide (ttype.PosModel.Binding = binding)

/-- The loop of `IsBoundToOneOf` (token.go:69-76) with the current value of
`isBound`. -/
def isBoundToOneOfLoop (bindings : Bindings) : List SemanticTokenType → Bool → Bool
  | [], isBound => isBound
  | semToken :: rest, _ =>
    if bindings.Contains semToken.PosModel.Binding then
      isBoundToOneOfLoop bindings rest true
    else false

/-- The method `IsBoundToOneOf` (token.go:65-81). -/
def Token.IsBoundToOneOf (token : Token) (bindings : Bindings) : Bool :=
  match token.ttype with
  | TokenType.ContextFree => isBoundToOneOfLoop bindings token.semanticCandidates false
  | TokenType.Semantic ttype => bindings.Contains ttype.PosModel.Binding

/-- The loop of `IsOption` (token.go:87-94) with the current value of `isOption`. -/
def isOptionLoop : List SemanticTokenType → Bool → Bool
  | [], isOption => isOption
  | semToken :: rest, _ =>
    if semToken.PosModel.IsOption then isOptionLoop rest true
    else false

/-- The method `IsOption` (token.go:83-99). -/
def Token.IsOption (token : Token) : Bool :=
  match token.ttype with
  | TokenType.ContextFree => isOptionLoop token.semanticCandidates false
  | TokenType.Semantic ttype => ttype.PosModel.IsOption

/-- The method `IsSemantic` (token.go:101-103). -/
def Token.IsSemantic (token : Token) : Bool :=
  token.ttype.IsSemantic

/-- The method `InferLeft` (token.go:105-130). -/
def Token.InferLeft (tokens : TokenList) (token : Token) : Except Fault Token :=
  let position := token.argumentPosition
  match token.ttype with
  | TokenType.ContextFree =>
    if position > 0 then
      tokens.index (position - 1) >>= fun leftNeighbour =>
      let nbrBoundToLeftOrNone :=
        leftNeighbour.IsBoundToOneOf [Binding.NONE, Binding.LEFT]
      if nbrBoundToLeftOrNone then
        if !token.IsOption then
          token.setCandidate tokens OPERAND
        else
          token.reduceCandidates tokens
            (fun tokenType => decide (tokenType.PosModel.Binding ≠ Binding.LEFT))
      else if leftNeighbour.IsBoundTo Binding.RIGHT then
        token.reduceCandidates tokens
          (fun tokenType => decide (tokenType.PosModel.Binding = Binding.LEFT))
      else Except.ok token
    else Except.ok token
  | TokenType.Semantic _ => Except.ok token

/-- The method `InferRight` (token.go:132-148). -/
def Token.InferRight (tokens : TokenList) (token : Token) : Except Fault Token :=
  let position := token.argumentPosition
  match token.ttype with
  | TokenType.ContextFree =>
    if token.IsOption && decide (position < (tokens.length : Int) + 1) then
      tokens.index (position + 1) >>= fun rightNeighbour =>
      let nbrBoundToRightOrNone :=
        rightNeighbour.IsBoundToOneOf [Binding.NONE, Binding.RIGHT]
      if nbrBoundToRightOrNone then
        token.reduceCandidates tokens
          (fun tokenType => decide (tokenType.PosModel.Binding ≠ Binding.RIGHT))
      else Except.ok token
    else Except.ok token
  | TokenType.Semantic _ => Except.ok token

/-- The method `InferPositional` (token.go:150-157). -/
def Token.InferPositional (tokens : TokenList) (token : Token) : Except Fault Token :=
  let position := token.argumentPosition
  if position = (tokens.length : Int) - 1 then
    if !token.IsOption then
      token.setCandidate tokens OPERAND
    else Except.ok token
  else Except.ok token

/-! ## Applying the passes to the tokens of a list -/

/-- The three inference methods a caller can invoke on a token. -/
inductive Pass
  | InferLeft
  | InferRight
  | InferPositional
deriving DecidableEq, Repr

/-- The method named by a pass. -/
def Pass.run : Pass → TokenList → Token → Except Fault Token
  | Pass.InferLeft => Token.InferLeft
  | Pass.InferRight => Token.InferRight
  | Pass.InferPositional => Token.InferPositional

/-- The call `tokens[i].pass()`: the method runs on the token in slot `i`, whose
new state replaces the old one in that slot. -/
def TokenList.applyPass (tokens : TokenList) (pass : Pass) (i : Nat) :
    Except Fault TokenList :=
  match tokens.get? i with
  | none => Except.error Fault.OutOfRange
  | some token => (pass.run tokens token).map (fun token1 => tokens.set i token1)

/-- A sequence of calls `tokens[i].pass()`, run from left to right; it stops at
the first panic. -/
def TokenList.runPasses : List (Pass × Nat) → TokenList → Except Fault TokenList
  | [], tokens => Except.ok tokens
  | (pass, i) :: steps, tokens =>
    tokens.applyPass pass i >>= fun tokens1 => TokenList.runPasses steps tokens1

/-- The schedule "for each token in list order: `InferLeft`, `InferRight`,
`InferPositional`" over `n` tokens. -/
def tokenOrder (n : Nat) : List (Pass × Nat) :=
  (List.range n).flatMap fun i =>
    [(Pass.InferLeft, i), (Pass.InferRight, i), (Pass.InferPositional, i)]

/-- The schedule "`InferLeft` on every token in list order, then `InferRight` on
every token, then `InferPositional` on every token" over `n` tokens. -/
def passOrder (n : Nat) : List (Pass × Nat) :=
  [Pass.InferLeft, Pass.InferRight, Pass.InferPositional].flatMap fun pass =>
    (List.range n).map fun i => (pass, i)

/-- A freshly lexed token: unresolved, not bound, with the given candidates. -/
def Token.fresh (position : Int) (value : String)
    (candidates : List SemanticTokenType) : Token :=
  { argumentPosition := position, ttype := TokenType.ContextFree, value := value,
    boundTo := none, semanticCandidates := candidates }

/-- Every token of the list records its own slot as its position. -/
def TokenList.WellFormed (tokens : TokenList) : Prop :=
  ∀ (i : Nat) (token : Token), tokens.get? i = some token →
    token.argumentPosition = (i : Int)

/-! ## Example types and lists -/

/-- A flag that takes the next token as its value. -/
def numFlag : SemanticTokenType :=
  { name := "F", posModel := { Binding := Binding.RIGHT, IsOption := true } }

/-- A value that belongs to the option on its left. -/
def optValue : SemanticTokenType :=
  { name := "VALUE", posModel := { Binding := Binding.LEFT, IsOption := false } }

/-- A standalone switch. -/
def switch : SemanticTokenType :=
  { name := "SWITCH", posModel := { Binding := Binding.NONE, IsOption := true } }

/-- The list `["-n", "5", "file.txt"]` of the flag-with-value scenario. -/
def flagScenario : TokenList :=
  [Token.fresh 0 "-n" [numFlag], Token.fresh 1 "5" [OPERAND],
   Token.fresh 2 "file.txt" [OPERAND]]

/-- A token with two candidates of different bindings. -/
def mixedToken : Token := Token.fresh 0 "-x" [numFlag, switch]

/-- An unresolved token that has no candidate left. -/
def exhaustedToken : Token := Token.fresh 0 "x" []

/-- The index `i` denotes a slot of the list. -/
def TokenList.validIndex (tokens : TokenList) (i : Int) : Prop :=
  0 ≤ i ∧ i < (tokens.length : Int)

instance (tokens : TokenList) (i : Int) : Decidable (tokens.validIndex i) := by
  unfold TokenList.validIndex
  exact inferInstance

/-- The token `"5"` once resolved to the value of the flag on its left. -/
def resolvedValue : Token :=
  { argumentPosition := 1, ttype := TokenType.Semantic optValue, value := "5",
    boundTo := some 0, semanticCandidates := [optValue] }

/-- The token `"5"` as lexed: a value of the flag on its left, or an operand. -/
def freshValue : Token := Token.fresh 1 "5" [optValue, OPERAND]

/-- A lone switch `"-v"`, the only (hence last) token of its list. -/
def loneSwitch : Token := Token.fresh 0 "-v" [switch]

/-- A lone flag `"-n"` that wants a value to its right. -/
def loneFlag : Token := Token.fresh 0 "-n" [numFlag]

/-- A lone plain word. -/
def loneWord : Token := Token.fresh 0 "file.txt" [OPERAND]

/-- A lone value `"5"` lexed as the value of an option on its left. -/
def loneValue : Token := Token.fresh 0 "5" [optValue]

/-- The candidates `result` are a narrowing of the candidates `prior`: every
element of `result` was an element of `prior`, and there are no more of them. -/
def Narrowed (prior result : List SemanticTokenType) : Prop :=
  (∀ c ∈ result, c ∈ prior) ∧ result.length ≤ prior.length

instance (prior result : List SemanticTokenType) :
    Decidable (Narrowed prior result) := by
  unfold Narrowed
  exact inferInstance

/-- The state of a token that was forced to `OPERAND`. -/
def Token.forcedOperand (token : Token) : Token :=
  { token with ttype := TokenType.Semantic OPERAND, semanticCandidates := [OPERAND] }

/-- No call of a pass on a token of the list changes the list: every call that
completes returns the list as it was. -/
def TokenList.Stable (tokens : TokenList) : Prop :=
  ∀ (pass : Pass) (i : Nat) (tokens1 : TokenList), i < tokens.length →
    tokens.applyPass pass i = Except.ok tokens1 → tokens1 = tokens

/-- Every call of a pass on a token of the list completes and returns the list
as it was. -/
def TokenList.allCallsReturnSelf (tokens : TokenList) : Bool :=
  [Pass.InferLeft, Pass.InferRight, Pass.InferPositional].all fun pass =>
    (List.range tokens.length).all fun i =>
      decide (tokens.applyPass pass i = Except.ok tokens)

/-- The token `"file.txt"` resolved to `OPERAND`. -/
def resolvedFile : Token :=
  { argumentPosition := 2, ttype := TokenType.Semantic OPERAND, value := "file.txt",
    boundTo := none, semanticCandidates := [OPERAND] }

/-- The flag scenario after the passes were applied token by token: `"-n"` and
`"5"` have no candidate left. -/
def exhaustedFlagState : TokenList :=
  [Token.fresh 0 "-n" [], Token.fresh 1 "5" [], resolvedFile]

/-- The flag scenario after the passes were applied pass by pass: `"-n"` keeps
its candidate, `"5"` has none left. -/
def keptFlagState : TokenList :=
  [Token.fresh 0 "-n" [numFlag], Token.fresh 1 "5" [], resolvedFile]

/-- The states the flag scenario can be in: `"-n"` and `"5"` unresolved with
their candidate or none, `"file.txt"` unresolved with its candidate or none, or
resolved to `OPERAND`. -/
def flagStates : List TokenList :=
  [[numFlag], []].flatMap fun c0 =>
    [[OPERAND], []].flatMap fun c1 =>
      [Token.fresh 2 "file.txt" [OPERAND], Token.fresh 2 "file.txt" [],
        resolvedFile].map fun t2 =>
        [Token.fresh 0 "-n" c0, Token.fresh 1 "5" c1, t2]

/-- The call `s[i].pass()` panics or ends in a state of `states`. -/
def staysIn (states : List TokenList) (s : TokenList) (pass : Pass) (i : Nat) :
    Bool :=
  match s.applyPass pass i with
  | Except.ok s1 => decide (s1 ∈ states)
  | Except.error _ => true

/-- An option that claims the token on its left. -/
def leftOption : SemanticTokenType :=
  { name := "LOPT", posModel := { Binding := Binding.LEFT, IsOption := true } }

/-- The candidates hold exactly zero or more than one element. -/
def notSingle (cands : List SemanticTokenType) : Prop :=
  cands.length ≠ 1

instance (cands : List SemanticTokenType) : Decidable (notSingle cands) := by
  unfold notSingle
  exact inferInstance

/-- A switch `"-y"` at position 0. -/
def firstSwitch : Token := Token.fresh 0 "-y" [switch]

/-- A plain word at position 1. -/
def secondWord : Token := Token.fresh 1 "w" [OPERAND]

/-- A token at position 1 that may be a flag taking a value or a switch. -/
def secondMixed : Token := Token.fresh 1 "-x" [numFlag, switch]

/-- An unresolved token at position 1 that has no candidate left. -/
def secondExhausted : Token := Token.fresh 1 "x" []

/-- The token `"-a"` of the adjacent-options scenario. -/
def optionA (candidates : List SemanticTokenType) : Token :=
  Token.fresh 0 "-a" candidates

/-- The token `"-b"` of the adjacent-options scenario. -/
def optionB (candidates : List SemanticTokenType) : Token :=
  Token.fresh 1 "-b" candidates

/-- Every candidate is an option bound `RIGHT`. -/
def allRightOptions (candidates : List SemanticTokenType) : Prop :=
  ∀ c ∈ candidates, c.PosModel.Binding = Binding.RIGHT ∧ c.PosModel.IsOption = true

instance (candidates : List SemanticTokenType) :
    Decidable (allRightOptions candidates) := by
  unfold allRightOptions
  exact inferInstance

/-- A call on a token that code of the package can make: one of the three passes,
`reduceCandidates(pred)` or `setCandidate(tokenType)`. -/
inductive Call
  | pass (p : Pass)
  | reduceCandidates (pred : SemanticTokenType → Bool)
  | setCandidate (tokenType : SemanticTokenType)

/-- The method named by a call. -/
def Call.run : Call → TokenList → Token → Except Fault Token
  | Call.pass p => p.run
  | Call.reduceCandidates pred => fun tokens token => token.reduceCandidates tokens pred
  | Call.setCandidate tokenType => fun tokens token =>
    token.setCandidate tokens tokenType

/-- The call `tokens[i].call(...)`: the method runs on the token in slot `i`,
whose new state replaces the old one in that slot. -/
def TokenList.applyCall (tokens : TokenList) (call : Call) (i : Nat) :
    Except Fault TokenList :=
  match tokens.get? i with
  | none => Except.error Fault.OutOfRange
  | some token => (call.run tokens token).map (fun token1 => tokens.set i token1)

/-- A sequence of calls, run from left to right; it stops at the first panic. -/
def TokenList.runCalls : List (Call × Nat) → TokenList → Except Fault TokenList
  | [], tokens => Except.ok tokens
  | (call, i) :: steps, tokens =>
    tokens.applyCall call i >>= fun tokens1 => TokenList.runCalls steps tokens1

/-- The call is not a `reduceCandidates` on a token that is resolved. -/
def reduceTargetUnresolved (call : Call) (target : Option Token) : Bool :=
  match call, target with
  | Call.reduceCandidates _, some token => decide (token.ttype = TokenType.ContextFree)
  | _, _ => true

/-- Along the run of the sequence, every `reduceCandidates` call is made on a
token that is unresolved at the time of the call. -/
def TokenList.reducesOnlyUnresolved : List (Call × Nat) → TokenList → Bool
  | [], _ => true
  | (call, i) :: steps, tokens =>
    reduceTargetUnresolved call (tokens.get? i) &&
      match tokens.applyCall call i with
      | Except.ok tokens1 => TokenList.reducesOnlyUnresolved steps tokens1
      | Except.error _ => true

/-- A token that is resolved to `t` has the candidates `[t]`. -/
def Token.resolvedSingleton (token : Token) : Prop :=
  ∀ t, token.ttype = TokenType.Semantic t → token.semanticCandidates = [t]

/-- An unresolved token at position 1 whose only candidate is an option bound
`LEFT`. -/
def secondLeftOption : Token := Token.fresh 1 "-o" [leftOption]

/-! ## The loops as properties of the whole candidate list -/

theorem isBoundToLoop_true (binding : Binding) (cands : List SemanticTokenType) :
    isBoundToLoop binding cands true = true ↔
      ∀ c ∈ cands, c.PosModel.Binding = binding := by
  induction cands with
  | nil => simp [isBoundToLoop]
  | cons c rest ih =>
    by_cases h : c.PosModel.Binding = binding
    · simp [isBoundToLoop, h, ih]
    · simp [isBoundToLoop, h]

theorem isBoundToOneOfLoop_cons_iff (bindings : Bindings) (c : SemanticTokenType)
    (rest : List SemanticTokenType) (acc : Bool) :
    isBoundToOneOfLoop bindings (c :: rest) acc = true ↔
      ∀ d ∈ c :: rest, d.PosModel.Binding ∈ bindings := by
  induction rest generalizing c acc with
  | nil =>
    by_cases h : c.PosModel.Binding ∈ bindings
    · simp [isBoundToOneOfLoop, Bindings.Contains, h]
    · simp [isBoundToOneOfLoop, Bindings.Contains, h]
  | cons d rest ih =>
    by_cases h : c.PosModel.Binding ∈ bindings
    · have := ih d true
      simp only [List.mem_cons, forall_eq_or_imp] at this ⊢
      rw [isBoundToOneOfLoop]
      simp [Bindings.Contains, h, this]
    · simp [isBoundToOneOfLoop, Bindings.Contains, h]

theorem isOptionLoop_cons_iff (c : SemanticTokenType)
    (rest : List SemanticTokenType) (acc : Bool) :
    isOptionLoop (c :: rest) acc = true ↔
      ∀ d ∈ c :: rest, d.PosModel.IsOption = true := by
  induction rest generalizing c acc with
  | nil =>
    by_cases h : c.PosModel.IsOption = true
    · simp [isOptionLoop, h]
    · simp [isOptionLoop, h]
  | cons d rest ih =>
    by_cases h : c.PosModel.IsOption = true
    · have := ih d true
      simp only [List.mem_cons, forall_eq_or_imp] at this ⊢
      rw [isOptionLoop]
      simp [h, this]
    · simp [isOptionLoop, h]

/-! ## Index expressions and the resolution check -/

theorem index_error_iff (tokens : TokenList) (i : Int) :
    tokens.index i = Except.error Fault.OutOfRange ↔
      ¬ (0 ≤ i ∧ i < (tokens.length : Int)) := by
  unfold TokenList.index
  by_cases hneg : i < 0
  · simp only [hneg, if_true, true_iff]
    omega
  · simp only [hneg, if_false]
    cases hget : tokens.get? i.toNat with
    | none =>
      have := List.get?_eq_none.1 hget
      simp
      omega
    | some t =>
      have hlt : i.toNat < tokens.length := by
        by_contra hge
        rw [List.get?_eq_none.2 (by omega)] at hget
        cases hget
      simp
      omega

theorem index_ok_of_valid (tokens : TokenList) (i : Int)
    (h : 0 ≤ i ∧ i < (tokens.length : Int)) :
    ∃ t, tokens.index i = Except.ok t := by
  cases hres : tokens.index i with
  | ok t => exact ⟨t, rfl⟩
  | error e =>
    cases e
    exact absurd h ((index_error_iff tokens i).1 hres)

theorem possiblyConvertToSemantic_NONE (tokens : TokenList) (token : Token)
    (c : SemanticTokenType) (hc : token.semanticCandidates = [c])
    (hb : c.PosModel.Binding = Binding.NONE) :
    token.possiblyConvertToSemantic tokens =
      Except.ok { token with ttype := TokenType.Semantic c } := by
  obtain ⟨name, ⟨binding, isOption⟩⟩ := c
  simp only [SemanticTokenType.PosModel] at hb
  subst hb
  unfold Token.possiblyConvertToSemantic
  rw [hc]
  simp [SemanticTokenType.PosModel, bind, Except.bind, hc]

theorem possiblyConvertToSemantic_RIGHT (tokens : TokenList) (token : Token)
    (c : SemanticTokenType) (hc : token.semanticCandidates = [c])
    (hb : c.PosModel.Binding = Binding.RIGHT) :
    token.possiblyConvertToSemantic tokens =
      (tokens.index (token.argumentPosition + 1)).map (fun _ =>
        { token with ttype := TokenType.Semantic c,
                     boundTo := some (token.argumentPosition + 1) }) := by
  obtain ⟨name, ⟨binding, isOption⟩⟩ := c
  simp only [SemanticTokenType.PosModel] at hb
  subst hb
  unfold Token.possiblyConvertToSemantic
  rw [hc]
  cases hi : tokens.index (token.argumentPosition + 1) <;>
    simp [SemanticTokenType.PosModel, hi, bind, Except.bind, Except.map, hc]

theorem possiblyConvertToSemantic_LEFT (tokens : TokenList) (token : Token)
    (c : SemanticTokenType) (hc : token.semanticCandidates = [c])
    (hb : c.PosModel.Binding = Binding.LEFT) :
    token.possiblyConvertToSemantic tokens =
      (tokens.index (token.argumentPosition - 1)).map (fun _ =>
        { token with ttype := TokenType.Semantic c,
                     boundTo := some (token.argumentPosition - 1) }) := by
  obtain ⟨name, ⟨binding, isOption⟩⟩ := c
  simp only [SemanticTokenType.PosModel] at hb
  subst hb
  unfold Token.possiblyConvertToSemantic
  rw [hc]
  cases hi : tokens.index (token.argumentPosition - 1) <;>
    simp [SemanticTokenType.PosModel, hi, bind, Except.bind, Except.map, hc]

theorem possiblyConvertToSemantic_not_single (tokens : TokenList) (token : Token)
    (hc : ∀ c, token.semanticCandidates ≠ [c]) :
    token.possiblyConvertToSemantic tokens = Except.ok token := by
  unfold Token.possiblyConvertToSemantic
  split
  · rename_i c h
    exact absurd h (hc c)
  · rfl

theorem possiblyConvertToSemantic_candidates (tokens : TokenList)
    (token token1 : Token)
    (h : token.possiblyConvertToSemantic tokens = Except.ok token1) :
    token1.semanticCandidates = token.semanticCandidates := by
  by_cases hs : ∃ c, token.semanticCandidates = [c]
  · obtain ⟨c, hc⟩ := hs
    cases hb : c.PosModel.Binding with
    | NONE =>
      rw [possiblyConvertToSemantic_NONE tokens token c hc hb] at h
      cases h
      rfl
    | LEFT =>
      rw [possiblyConvertToSemantic_LEFT tokens token c hc hb] at h
      cases hi : tokens.index (token.argumentPosition - 1) with
      | error e => rw [hi] at h; cases h
      | ok t => rw [hi] at h; cases h; rfl
    | RIGHT =>
      rw [possiblyConvertToSemantic_RIGHT tokens token c hc hb] at h
      cases hi : tokens.index (token.argumentPosition + 1) with
      | error e => rw [hi] at h; cases h
      | ok t => rw [hi] at h; cases h; rfl
  · rw [possiblyConvertToSemantic_not_single tokens token
      (fun c hc => hs ⟨c, hc⟩)] at h
    cases h
    rfl

theorem setCandidate_OPERAND (tokens : TokenList) (token : Token) :
    token.setCandidate tokens OPERAND = Except.ok
      { token with ttype := TokenType.Semantic OPERAND,
                   semanticCandidates := [OPERAND] } := by
  rfl

/-! ## The read-only queries -/

/-- C5: `IsBoundTo(b)` is true exactly when the token is resolved to a type whose
binding is `b`, or is unresolved with every candidate bound to `b`; an unresolved
token holding two candidates of different bindings answers false for every
binding. -/
theorem IsBoundTo_uniform (token : Token) (b b' : Binding)
    (c1 c2 : SemanticTokenType) :
    (token.IsBoundTo b = true ↔
      (∃ t, token.ttype = TokenType.Semantic t ∧ t.PosModel.Binding = b) ∨
      (token.ttype = TokenType.ContextFree ∧
        ∀ c ∈ token.semanticCandidates, c.PosModel.Binding = b)) ∧
    (token.ttype = TokenType.ContextFree →
      c1 ∈ token.semanticCandidates → c2 ∈ token.semanticCandidates →
      c1.PosModel.Binding ≠ c2.PosModel.Binding →
      token.IsBoundTo b' = false) := by
  constructor
  · unfold Token.IsBoundTo
    cases h : token.ttype with
    | ContextFree => simp [isBoundToLoop_true]
    | Semantic t => simp
  · intro hcf h1 h2 hne
    cases hb : token.IsBoundTo b' with
    | false => rfl
    | true =>
      exfalso
      unfold Token.IsBoundTo at hb
      rw [hcf] at hb
      have hall := (isBoundToLoop_true b' token.semanticCandidates).1 hb
      exact hne ((hall c1 h1).trans (hall c2 h2).symm)

theorem IsBoundTo_uniform_witness :
    mixedToken.ttype = TokenType.ContextFree ∧
    numFlag ∈ mixedToken.semanticCandidates ∧
    switch ∈ mixedToken.semanticCandidates ∧
    numFlag.PosModel.Binding ≠ switch.PosModel.Binding ∧
    mixedToken.IsBoundTo Binding.RIGHT = false :=
  ⟨by decide, by decide, by decide, by decide,
    (IsBoundTo_uniform mixedToken Binding.NONE Binding.RIGHT numFlag switch).2
      (by decide) (by decide) (by decide) (by decide)⟩

/-- C6, as the claim states it, fails: on an unresolved token with no candidate
`IsBoundToOneOf` answers false although every candidate (there is none) has its
binding in the set, and although `IsBoundTo` answers true there. -/
theorem IsBoundToOneOf_empty_counterexample :
    exhaustedToken.IsBoundToOneOf [Binding.NONE] = false ∧
    exhaustedToken.IsBoundTo Binding.NONE = true ∧
    ¬ (exhaustedToken.IsBoundToOneOf [Binding.NONE] = true ↔
        (∃ t, exhaustedToken.ttype = TokenType.Semantic t ∧
          t.PosModel.Binding ∈ [Binding.NONE]) ∨
        (exhaustedToken.ttype = TokenType.ContextFree ∧
          ∀ c ∈ exhaustedToken.semanticCandidates,
            c.PosModel.Binding ∈ [Binding.NONE])) := by
  refine ⟨by decide, by decide, ?_⟩
  intro h
  have hr : exhaustedToken.IsBoundToOneOf [Binding.NONE] = true :=
    h.2 (Or.inr ⟨rfl, by intro c hc; cases hc⟩)
  revert hr
  decide

/-- C6 (amended): `IsBoundToOneOf(S)` is true exactly when the token is resolved
to a type whose binding is in `S`, or is unresolved with at least one candidate
and every candidate's binding in `S`; on an unresolved token with no candidate it
answers false, whereas `IsBoundTo` answers true for every binding. -/
theorem IsBoundToOneOf_uniform_nonempty (token : Token) (S : Bindings)
    (b : Binding) :
    (token.IsBoundToOneOf S = true ↔
      (∃ t, token.ttype = TokenType.Semantic t ∧ t.PosModel.Binding ∈ S) ∨
      (token.ttype = TokenType.ContextFree ∧ token.semanticCandidates ≠ [] ∧
        ∀ c ∈ token.semanticCandidates, c.PosModel.Binding ∈ S)) ∧
    (token.ttype = TokenType.ContextFree → token.semanticCandidates = [] →
      token.IsBoundToOneOf S = false ∧ token.IsBoundTo b = true) := by
  constructor
  · unfold Token.IsBoundToOneOf
    cases h : token.ttype with
    | ContextFree =>
      cases hc : token.semanticCandidates with
      | nil => simp [isBoundToOneOfLoop]
      | cons c rest => simp [isBoundToOneOfLoop_cons_iff]
    | Semantic t => simp [Bindings.Contains]
  · intro hcf hnil
    unfold Token.IsBoundToOneOf Token.IsBoundTo
    rw [hcf, hnil]
    simp [isBoundToOneOfLoop, isBoundToLoop]

theorem IsBoundToOneOf_uniform_nonempty_witness :
    exhaustedToken.ttype = TokenType.ContextFree ∧
    exhaustedToken.semanticCandidates = [] ∧
    exhaustedToken.IsBoundToOneOf [Binding.NONE, Binding.LEFT] = false ∧
    exhaustedToken.IsBoundTo Binding.RIGHT = true :=
  ⟨by decide, by decide,
    (IsBoundToOneOf_uniform_nonempty exhaustedToken [Binding.NONE, Binding.LEFT]
      Binding.RIGHT).2 (by decide) (by decide)⟩

/-- C7, as the claim states it, fails: on an unresolved token with no candidate
`IsOption` answers false although every candidate (there is none) is an
option. -/
theorem IsOption_empty_counterexample :
    exhaustedToken.IsOption = false ∧
    ¬ (exhaustedToken.IsOption = true ↔
        (∃ t, exhaustedToken.ttype = TokenType.Semantic t ∧
          t.PosModel.IsOption = true) ∨
        (exhaustedToken.ttype = TokenType.ContextFree ∧
          ∀ c ∈ exhaustedToken.semanticCandidates, c.PosModel.IsOption = true)) := by
  refine ⟨by decide, ?_⟩
  intro h
  have hr : exhaustedToken.IsOption = true :=
    h.2 (Or.inr ⟨rfl, by intro c hc; cases hc⟩)
  revert hr
  decide

/-- C7 (amended): `IsOption()` is true exactly when the token is resolved to a
type with `IsOption` true, or is unresolved with at least one candidate and every
candidate has `IsOption` true. -/
theorem IsOption_uniform_nonempty (token : Token) :
    token.IsOption = true ↔
      (∃ t, token.ttype = TokenType.Semantic t ∧ t.PosModel.IsOption = true) ∨
      (token.ttype = TokenType.ContextFree ∧ token.semanticCandidates ≠ [] ∧
        ∀ c ∈ token.semanticCandidates, c.PosModel.IsOption = true) := by
  unfold Token.IsOption
  cases h : token.ttype with
  | ContextFree =>
    cases hc : token.semanticCandidates with
    | nil => simp [isOptionLoop]
    | cons c rest => simp [isOptionLoop_cons_iff]
  | Semantic t => simp

/-! ## Resolved tokens and the passes -/

theorem InferLeft_Semantic (tokens : TokenList) (token : Token)
    (t : SemanticTokenType) (h : token.ttype = TokenType.Semantic t) :
    token.InferLeft tokens = Except.ok token := by
  unfold Token.InferLeft
  rw [h]

theorem InferRight_Semantic (tokens : TokenList) (token : Token)
    (t : SemanticTokenType) (h : token.ttype = TokenType.Semantic t) :
    token.InferRight tokens = Except.ok token := by
  unfold Token.InferRight
  rw [h]

/-- C1 fails for `InferPositional`, which has no type switch: in the list
`["-n", "5"]`, `InferLeft` resolves `"5"` to the left-bound value type, and a
later `InferPositional` on that resolved last token replaces its kind and its
candidates by `OPERAND`, leaving `boundTo` pointing at `"-n"`. -/
theorem InferPositional_reopens_resolved :
    freshValue.InferLeft [loneFlag, freshValue] = Except.ok resolvedValue ∧
    resolvedValue.ttype = TokenType.Semantic optValue ∧
    resolvedValue.InferPositional [loneFlag, resolvedValue] = Except.ok
      { argumentPosition := 1, ttype := TokenType.Semantic OPERAND, value := "5",
        boundTo := some 0, semanticCandidates := [OPERAND] } := by
  decide

/-! ## `InferPositional` -/

/-- C8: an unresolved token at the last position for which `IsOption()` is false
becomes `Semantic(OPERAND)` with candidates `[OPERAND]` and nothing else changed;
a token that is not at the last position, or for which `IsOption()` is true, is
left as it is. -/
theorem InferPositional_last (tokens : TokenList) (token : Token) :
    (tokens ≠ [] → token.argumentPosition = (tokens.length : Int) - 1 →
      token.ttype = TokenType.ContextFree → token.IsOption = false →
      token.InferPositional tokens = Except.ok
        { token with ttype := TokenType.Semantic OPERAND,
                     semanticCandidates := [OPERAND] }) ∧
    ((token.argumentPosition ≠ (tokens.length : Int) - 1 ∨ token.IsOption = true) →
      token.InferPositional tokens = Except.ok token) := by
  constructor
  · intro _ hlast _ hopt
    have hset := setCandidate_OPERAND tokens token
    simp only [Token.InferPositional, if_pos hlast, hopt, Bool.not_false, if_true]
    exact hset
  · intro h
    unfold Token.InferPositional
    rcases h with h | h
    · simp only [h, if_false]
    · simp [h]

theorem InferPositional_last_witness :
    ([loneWord] ≠ [] ∧
      loneWord.argumentPosition = (([loneWord] : TokenList).length : Int) - 1 ∧
      loneWord.ttype = TokenType.ContextFree ∧ loneWord.IsOption = false) ∧
    loneWord.InferPositional [loneWord] = Except.ok
      { loneWord with ttype := TokenType.Semantic OPERAND,
                      semanticCandidates := [OPERAND] } ∧
    (loneSwitch.IsOption = true ∧
      loneSwitch.InferPositional [loneSwitch] = Except.ok loneSwitch) :=
  ⟨⟨by decide, by decide, by decide, by decide⟩,
    (InferPositional_last [loneWord] loneWord).1
      (by decide) (by decide) (by decide) (by decide),
    by decide,
    (InferPositional_last [loneSwitch] loneSwitch).2 (Or.inr (by decide))⟩

/-! ## Out-of-range failures -/

/-- C9: for a token of the list with exactly one candidate `c`, the resolution
check fails with the out-of-range fault exactly when `c` is bound `RIGHT` and
`position+1` is not a valid index, or `c` is bound `LEFT` and the position is 0;
otherwise it succeeds. A last token whose only candidate is bound `RIGHT`
fails. -/
theorem possiblyConvertToSemantic_outOfRange (tokens : TokenList) (token : Token)
    (c : SemanticTokenType) (hc : token.semanticCandidates = [c])
    (hpos : tokens.validIndex token.argumentPosition) :
    (token.possiblyConvertToSemantic tokens = Except.error Fault.OutOfRange ↔
      (c.PosModel.Binding = Binding.RIGHT ∧
        ¬ tokens.validIndex (token.argumentPosition + 1)) ∨
      (c.PosModel.Binding = Binding.LEFT ∧ token.argumentPosition = 0)) ∧
    (¬ ((c.PosModel.Binding = Binding.RIGHT ∧
          ¬ tokens.validIndex (token.argumentPosition + 1)) ∨
        (c.PosModel.Binding = Binding.LEFT ∧ token.argumentPosition = 0)) →
      ∃ token1, token.possiblyConvertToSemantic tokens = Except.ok token1) ∧
    (c.PosModel.Binding = Binding.RIGHT →
      token.argumentPosition = (tokens.length : Int) - 1 →
      token.possiblyConvertToSemantic tokens = Except.error Fault.OutOfRange) := by
  have key : token.possiblyConvertToSemantic tokens = Except.error Fault.OutOfRange ↔
      (c.PosModel.Binding = Binding.RIGHT ∧
        ¬ tokens.validIndex (token.argumentPosition + 1)) ∨
      (c.PosModel.Binding = Binding.LEFT ∧ token.argumentPosition = 0) := by
    unfold TokenList.validIndex at hpos ⊢
    cases hb : c.PosModel.Binding with
    | NONE =>
      rw [possiblyConvertToSemantic_NONE tokens token c hc hb]
      simp
    | LEFT =>
      rw [possiblyConvertToSemantic_LEFT tokens token c hc hb]
      have hiff := index_error_iff tokens (token.argumentPosition - 1)
      cases hi : tokens.index (token.argumentPosition - 1) with
      | error e =>
        cases e
        have := hiff.1 hi
        simp [Except.map]
        omega
      | ok t =>
        have : ¬ token.argumentPosition = 0 := by
          intro h0
          have hv : ¬ (0 ≤ token.argumentPosition - 1 ∧
              token.argumentPosition - 1 < (tokens.length : Int)) := by omega
          rw [hiff.2 hv] at hi
          cases hi
        simp [Except.map, this]
    | RIGHT =>
      rw [possiblyConvertToSemantic_RIGHT tokens token c hc hb]
      have hiff := index_error_iff tokens (token.argumentPosition + 1)
      cases hi : tokens.index (token.argumentPosition + 1) with
      | error e =>
        cases e
        have := hiff.1 hi
        simp [Except.map]
        omega
      | ok t =>
        have : (0 ≤ token.argumentPosition + 1 ∧
            token.argumentPosition + 1 < (tokens.length : Int)) := by
          by_contra hv
          rw [hiff.2 hv] at hi
          cases hi
        simp [Except.map, this]
  refine ⟨key, ?_, ?_⟩
  · intro hno
    cases hres : token.possiblyConvertToSemantic tokens with
    | ok token1 => exact ⟨token1, rfl⟩
    | error e =>
      cases e
      exact absurd (key.1 hres) hno
  · intro hR hlast
    refine key.2 (Or.inl ⟨hR, ?_⟩)
    unfold TokenList.validIndex
    omega

theorem possiblyConvertToSemantic_outOfRange_witness :
    loneFlag.semanticCandidates = [numFlag] ∧
    TokenList.validIndex [loneFlag] loneFlag.argumentPosition ∧
    numFlag.PosModel.Binding = Binding.RIGHT ∧
    loneFlag.argumentPosition = (([loneFlag] : TokenList).length : Int) - 1 ∧
    loneFlag.possiblyConvertToSemantic [loneFlag] =
      Except.error Fault.OutOfRange :=
  ⟨by decide, by decide, by decide, by decide,
    (possiblyConvertToSemantic_outOfRange [loneFlag] loneFlag numFlag
      (by decide) (by decide)).2.2 (by decide) (by decide)⟩

/-- C10 fails on the code: the guard of `InferRight` is
`position < len(tokens)+1`, which every position satisfies, so for a last token
for which `IsOption()` is true the method indexes `tokens[position+1]` and
panics. -/
theorem InferRight_last_option_panics :
    loneSwitch.ttype = TokenType.ContextFree ∧
    loneSwitch.argumentPosition = (([loneSwitch] : TokenList).length : Int) - 1 ∧
    loneSwitch.IsOption = true ∧
    loneSwitch.InferRight [loneSwitch] = Except.error Fault.OutOfRange := by
  decide

/-! ## Narrowing -/

theorem reduceLoop_foldl (pred : SemanticTokenType → Bool)
    (cands acc : List SemanticTokenType) :
    cands.foldl (fun newCandidates candidate =>
      if pred candidate then newCandidates ++ [candidate] else newCandidates) acc =
      acc ++ cands.filter pred := by
  induction cands generalizing acc with
  | nil => simp
  | cons c rest ih =>
    rw [List.foldl_cons, ih]
    by_cases h : pred c = true
    · simp [h, List.filter_cons]
    · simp [h, List.filter_cons]

theorem reduceLoop_eq_filter (pred : SemanticTokenType → Bool)
    (cands : List SemanticTokenType) :
    reduceLoop pred cands = cands.filter pred := by
  unfold reduceLoop
  rw [reduceLoop_foldl]
  simp

theorem Narrowed_refl (cands : List SemanticTokenType) : Narrowed cands cands :=
  ⟨fun _ h => h, le_refl _⟩

theorem Narrowed_filter (pred : SemanticTokenType → Bool)
    (cands : List SemanticTokenType) : Narrowed cands (cands.filter pred) :=
  ⟨fun _ h => (List.mem_filter.1 h).1, List.length_filter_le pred cands⟩

theorem Narrowed_singleton (cands : List SemanticTokenType) (t : SemanticTokenType)
    (h : t ∈ cands) : Narrowed cands [t] := by
  constructor
  · intro c hc
    rw [List.mem_singleton.1 hc]
    exact h
  · cases cands with
    | nil => cases h
    | cons c rest => simp

theorem reduceCandidates_candidates (tokens : TokenList) (token token1 : Token)
    (pred : SemanticTokenType → Bool)
    (h : token.reduceCandidates tokens pred = Except.ok token1) :
    token1.semanticCandidates = token.semanticCandidates.filter pred := by
  unfold Token.reduceCandidates at h
  rw [possiblyConvertToSemantic_candidates tokens _ token1 h]
  exact reduceLoop_eq_filter pred token.semanticCandidates

theorem setCandidate_candidates (tokens : TokenList) (token token1 : Token)
    (t : SemanticTokenType)
    (h : token.setCandidate tokens t = Except.ok token1) :
    token1.semanticCandidates = [t] := by
  unfold Token.setCandidate at h
  rw [possiblyConvertToSemantic_candidates tokens _ token1 h]

theorem forced_or_narrowed (tokens : TokenList) (token token1 : Token)
    (h : token.setCandidate tokens OPERAND = Except.ok token1) :
    Narrowed token.semanticCandidates token1.semanticCandidates ∨
      (OPERAND ∉ token.semanticCandidates ∧ token1.semanticCandidates = [OPERAND]) := by
  have hc := setCandidate_candidates tokens token token1 OPERAND h
  by_cases hmem : OPERAND ∈ token.semanticCandidates
  · left
    rw [hc]
    exact Narrowed_singleton _ _ hmem
  · exact Or.inr ⟨hmem, hc⟩

theorem reduce_narrowed (tokens : TokenList) (token token1 : Token)
    (pred : SemanticTokenType → Bool)
    (h : token.reduceCandidates tokens pred = Except.ok token1) :
    Narrowed token.semanticCandidates token1.semanticCandidates := by
  rw [reduceCandidates_candidates tokens token token1 pred h]
  exact Narrowed_filter pred _

/-- C2, as the claim states it, fails: `InferPositional` on the lone unresolved
token `"5"` whose only candidate is the left-bound value type leaves the
candidates `[OPERAND]`, and `OPERAND` was not a candidate; on a lone unresolved
token with no candidate it leaves one candidate where there was none. -/
theorem narrowing_counterexample :
    loneValue.InferPositional [loneValue] = Except.ok loneValue.forcedOperand ∧
    ¬ Narrowed loneValue.semanticCandidates
        loneValue.forcedOperand.semanticCandidates ∧
    exhaustedToken.InferPositional [exhaustedToken] =
      Except.ok exhaustedToken.forcedOperand ∧
    exhaustedToken.semanticCandidates.length <
      exhaustedToken.forcedOperand.semanticCandidates.length := by
  decide

/-- C2 (amended): after a call that completes, `reduceCandidates` and
`InferRight` leave candidates that all were candidates before, and no more of
them; `setCandidate(t)` leaves exactly `[t]`, which is such a narrowing when `t`
was a candidate; `InferLeft` and `InferPositional` leave such a narrowing, or
exactly `[OPERAND]` when `OPERAND` was not a candidate. -/
theorem narrowing_unless_forced (tokens : TokenList) (token token1 : Token)
    (pred : SemanticTokenType → Bool) (t : SemanticTokenType) :
    (token.reduceCandidates tokens pred = Except.ok token1 →
      Narrowed token.semanticCandidates token1.semanticCandidates) ∧
    (token.InferRight tokens = Except.ok token1 →
      Narrowed token.semanticCandidates token1.semanticCandidates) ∧
    (token.setCandidate tokens t = Except.ok token1 →
      token1.semanticCandidates = [t] ∧
      (t ∈ token.semanticCandidates →
        Narrowed token.semanticCandidates token1.semanticCandidates)) ∧
    (token.InferLeft tokens = Except.ok token1 →
      Narrowed token.semanticCandidates token1.semanticCandidates ∨
      (OPERAND ∉ token.semanticCandidates ∧
        token1.semanticCandidates = [OPERAND])) ∧
    (token.InferPositional tokens = Except.ok token1 →
      Narrowed token.semanticCandidates token1.semanticCandidates ∨
      (OPERAND ∉ token.semanticCandidates ∧
        token1.semanticCandidates = [OPERAND])) := by
  refine ⟨reduce_narrowed tokens token token1 pred, ?_, ?_, ?_, ?_⟩
  · intro h
    unfold Token.InferRight at h
    cases htt : token.ttype with
    | Semantic s =>
      simp only [htt] at h
      cases h
      exact Narrowed_refl _
    | ContextFree =>
      simp only [htt] at h
      split at h
      · cases hi : tokens.index (token.argumentPosition + 1) with
        | error e => rw [hi] at h; cases h
        | ok nbr =>
          rw [hi] at h
          simp only [bind, Except.bind] at h
          split at h
          · exact reduce_narrowed tokens token token1 _ h
          · cases h
            exact Narrowed_refl _
      · cases h
        exact Narrowed_refl _
  · intro h
    have hc := setCandidate_candidates tokens token token1 t h
    refine ⟨hc, fun hmem => ?_⟩
    rw [hc]
    exact Narrowed_singleton _ _ hmem
  · intro h
    unfold Token.InferLeft at h
    cases htt : token.ttype with
    | Semantic s =>
      simp only [htt] at h
      cases h
      exact Or.inl (Narrowed_refl _)
    | ContextFree =>
      simp only [htt] at h
      split at h
      · cases hi : tokens.index (token.argumentPosition - 1) with
        | error e => rw [hi] at h; cases h
        | ok nbr =>
          rw [hi] at h
          simp only [bind, Except.bind] at h
          split at h
          · split at h
            · exact forced_or_narrowed tokens token token1 h
            · exact Or.inl (reduce_narrowed tokens token token1 _ h)
          · split at h
            · exact Or.inl (reduce_narrowed tokens token token1 _ h)
            · cases h
              exact Or.inl (Narrowed_refl _)
      · cases h
        exact Or.inl (Narrowed_refl _)
  · intro h
    unfold Token.InferPositional at h
    simp only at h
    split at h
    · split at h
      · exact forced_or_narrowed tokens token token1 h
      · cases h
        exact Or.inl (Narrowed_refl _)
    · cases h
      exact Or.inl (Narrowed_refl _)

theorem narrowing_unless_forced_witness :
    Narrowed mixedToken.semanticCandidates [switch] ∧
    Narrowed [numFlag, switch] [switch] ∧
    ((loneWord.forcedOperand).semanticCandidates = [OPERAND] ∧
      (OPERAND ∈ loneWord.semanticCandidates →
        Narrowed loneWord.semanticCandidates
          (loneWord.forcedOperand).semanticCandidates)) ∧
    (Narrowed freshValue.semanticCandidates resolvedValue.semanticCandidates ∨
      (OPERAND ∉ freshValue.semanticCandidates ∧
        resolvedValue.semanticCandidates = [OPERAND])) ∧
    (Narrowed loneValue.semanticCandidates
        (loneValue.forcedOperand).semanticCandidates ∨
      (OPERAND ∉ loneValue.semanticCandidates ∧
        (loneValue.forcedOperand).semanticCandidates = [OPERAND])) :=
  ⟨(narrowing_unless_forced [mixedToken] mixedToken
      { argumentPosition := 0, ttype := TokenType.Semantic switch,
        value := "-x", boundTo := none, semanticCandidates := [switch] }
      (fun c => decide (c.PosModel.Binding ≠ Binding.RIGHT)) OPERAND).1 (by decide),
    (narrowing_unless_forced
      [Token.fresh 0 "-y" [switch], Token.fresh 1 "-x" [numFlag, switch],
        Token.fresh 2 "z" [OPERAND]]
      (Token.fresh 1 "-x" [numFlag, switch])
      { argumentPosition := 1, ttype := TokenType.Semantic switch,
        value := "-x", boundTo := none, semanticCandidates := [switch] }
      (fun _ => true) OPERAND).2.1 (by decide),
    (narrowing_unless_forced [loneWord] loneWord loneWord.forcedOperand
      (fun _ => true) OPERAND).2.2.1 (by decide),
    (narrowing_unless_forced [loneFlag, freshValue] freshValue resolvedValue
      (fun _ => true) OPERAND).2.2.2.1 (by decide),
    (narrowing_unless_forced [loneValue] loneValue loneValue.forcedOperand
      (fun _ => true) OPERAND).2.2.2.2 (by decide)⟩

/-! ## Sequences of passes -/

theorem runPasses_invariant (P : TokenList → Prop)
    (hstep : ∀ s pass i s1, P s → s.applyPass pass i = Except.ok s1 → P s1)
    (steps : List (Pass × Nat)) (s final : TokenList) (hs : P s)
    (hrun : s.runPasses steps = Except.ok final) : P final := by
  induction steps generalizing s with
  | nil =>
    simp only [TokenList.runPasses] at hrun
    cases hrun
    exact hs
  | cons step rest ih =>
    obtain ⟨pass, i⟩ := step
    simp only [TokenList.runPasses, bind, Except.bind] at hrun
    cases happ : s.applyPass pass i with
    | error e => rw [happ] at hrun; cases hrun
    | ok s1 =>
      rw [happ] at hrun
      exact ih s1 (hstep s pass i s1 hs happ) hrun

theorem Stable_of_allCallsReturnSelf (tokens : TokenList)
    (h : tokens.allCallsReturnSelf = true) : tokens.Stable := by
  intro pass i tokens1 hi happ
  unfold TokenList.allCallsReturnSelf at h
  rw [List.all_eq_true] at h
  have hp := h pass (by cases pass <;> simp)
  rw [List.all_eq_true] at hp
  have hpi := hp i (List.mem_range.2 hi)
  rw [of_decide_eq_true hpi] at happ
  cases happ
  rfl

/-! ## One-token lists -/

theorem forcedOperand_forcedOperand (token : Token) :
    token.forcedOperand.forcedOperand = token.forcedOperand := rfl

theorem single_applyPass (token : Token) (h0 : token.argumentPosition = 0)
    (pass : Pass) (i : Nat) (s1 : TokenList)
    (h : TokenList.applyPass [token] pass i = Except.ok s1) :
    s1 = [token] ∨ (token.IsOption = false ∧ s1 = [token.forcedOperand]) := by
  cases i with
  | succ j =>
    simp [TokenList.applyPass] at h
  | zero =>
    simp only [TokenList.applyPass, List.get?_cons_zero] at h
    cases pass with
    | InferLeft =>
      have hres : token.InferLeft [token] = Except.ok token := by
        unfold Token.InferLeft
        cases htt : token.ttype <;> simp [h0]
      simp only [Pass.run, hres, Except.map, List.set_cons_zero] at h
      cases h
      exact Or.inl rfl
    | InferRight =>
      cases hopt : token.IsOption with
      | false =>
        have hres : token.InferRight [token] = Except.ok token := by
          unfold Token.InferRight
          cases htt : token.ttype <;> simp [hopt]
        simp only [Pass.run, hres, Except.map, List.set_cons_zero] at h
        cases h
        exact Or.inl rfl
      | true =>
        cases htt : token.ttype with
        | Semantic t =>
          have hres := InferRight_Semantic [token] token t htt
          simp only [Pass.run, hres, Except.map, List.set_cons_zero] at h
          cases h
          exact Or.inl rfl
        | ContextFree =>
          have hres : token.InferRight [token] = Except.error Fault.OutOfRange := by
            unfold Token.InferRight
            simp [htt, hopt, h0, TokenList.index, bind, Except.bind]
          simp only [Pass.run, hres, Except.map] at h
          cases h
    | InferPositional =>
      cases hopt : token.IsOption with
      | false =>
        have hres : token.InferPositional [token] =
            Except.ok token.forcedOperand := by
          unfold Token.InferPositional
          simp only [h0, hopt]
          exact setCandidate_OPERAND [token] token
        simp only [Pass.run, hres, Except.map, List.set_cons_zero] at h
        cases h
        exact Or.inr ⟨rfl, rfl⟩
      | true =>
        have hres : token.InferPositional [token] = Except.ok token := by
          unfold Token.InferPositional
          simp [hopt]
        simp only [Pass.run, hres, Except.map, List.set_cons_zero] at h
        cases h
        exact Or.inl rfl

theorem single_reachable (token : Token) (h0 : token.argumentPosition = 0)
    (steps : List (Pass × Nat)) (final : TokenList)
    (hrun : TokenList.runPasses steps [token] = Except.ok final) :
    final = [token] ∨ (token.IsOption = false ∧ final = [token.forcedOperand]) := by
  refine runPasses_invariant
    (fun s => s = [token] ∨ (token.IsOption = false ∧ s = [token.forcedOperand]))
    ?_ steps [token] final (Or.inl rfl) hrun
  intro s pass i s1 hs happ
  rcases hs with hs | ⟨hopt, hs⟩
  · subst hs
    exact single_applyPass token h0 pass i s1 happ
  · subst hs
    have := single_applyPass token.forcedOperand h0 pass i s1 happ
    rw [forcedOperand_forcedOperand] at this
    rcases this with h1 | ⟨_, h1⟩
    · exact Or.inr ⟨hopt, h1⟩
    · exact Or.inr ⟨hopt, h1⟩

theorem single_stable_final (token : Token) (h0 : token.argumentPosition = 0)
    (steps : List (Pass × Nat)) (final : TokenList)
    (hrun : TokenList.runPasses steps [token] = Except.ok final)
    (hst : final.Stable) :
    final = if token.IsOption then [token] else [token.forcedOperand] := by
  rcases single_reachable token h0 steps final hrun with h | ⟨hopt, h⟩
  · cases hopt : token.IsOption with
    | true => simpa using h
    | false =>
      subst h
      have happ : TokenList.applyPass [token] Pass.InferPositional 0 =
          Except.ok [token.forcedOperand] := by
        have hres : token.InferPositional [token] =
            Except.ok token.forcedOperand := by
          unfold Token.InferPositional
          simp only [h0, hopt]
          exact setCandidate_OPERAND [token] token
        simp [TokenList.applyPass, Pass.run, hres, Except.map]
      have := hst Pass.InferPositional 0 [token.forcedOperand] (by simp) happ
      simpa using this.symm
  · simp [hopt, h]

/-! ## Order of the passes -/

/-- C3, as the claim states it, fails: from the unresolved list
`["-n", "5", "file.txt"]`, applying the three passes token by token and applying
them pass by pass both complete and both end in a state that no further call
changes, and the two states differ (`"-n"` has lost its candidate in the first
and kept it in the second). -/
theorem fixpoint_depends_on_order :
    flagScenario.runPasses (tokenOrder 3) = Except.ok exhaustedFlagState ∧
    flagScenario.runPasses (passOrder 3) = Except.ok keptFlagState ∧
    exhaustedFlagState.allCallsReturnSelf = true ∧
    keptFlagState.allCallsReturnSelf = true ∧
    exhaustedFlagState.Stable ∧ keptFlagState.Stable ∧
    exhaustedFlagState ≠ keptFlagState :=
  ⟨by decide, by decide, by decide, by decide,
    Stable_of_allCallsReturnSelf _ (by decide),
    Stable_of_allCallsReturnSelf _ (by decide), by decide⟩

/-- C3 (amended): for a list of one token (at position 0), any two sequences of
applications of `InferLeft`, `InferRight` and `InferPositional` that both
complete and both end in a state that no further call changes, end in the same
state. -/
theorem fixpoint_unique_single_token (token : Token)
    (h0 : token.argumentPosition = 0)
    (steps1 steps2 : List (Pass × Nat)) (final1 final2 : TokenList)
    (hrun1 : TokenList.runPasses steps1 [token] = Except.ok final1)
    (hrun2 : TokenList.runPasses steps2 [token] = Except.ok final2)
    (hst1 : final1.Stable) (hst2 : final2.Stable) :
    final1 = final2 := by
  rw [single_stable_final token h0 steps1 final1 hrun1 hst1,
    single_stable_final token h0 steps2 final2 hrun2 hst2]

theorem fixpoint_unique_single_token_witness :
    TokenList.runPasses [(Pass.InferLeft, 0), (Pass.InferPositional, 0)] [loneWord] =
      Except.ok [loneWord.forcedOperand] ∧
    TokenList.runPasses
        [(Pass.InferPositional, 0), (Pass.InferRight, 0), (Pass.InferLeft, 0)]
        [loneWord] =
      Except.ok [loneWord.forcedOperand] ∧
    TokenList.Stable [loneWord.forcedOperand] ∧
    ([loneWord.forcedOperand] : TokenList) = [loneWord.forcedOperand] :=
  ⟨by decide, by decide, Stable_of_allCallsReturnSelf _ (by decide),
    fixpoint_unique_single_token loneWord (by decide)
      [(Pass.InferLeft, 0), (Pass.InferPositional, 0)]
      [(Pass.InferPositional, 0), (Pass.InferRight, 0), (Pass.InferLeft, 0)]
      [loneWord.forcedOperand] [loneWord.forcedOperand]
      (by decide) (by decide)
      (Stable_of_allCallsReturnSelf _ (by decide))
      (Stable_of_allCallsReturnSelf _ (by decide))⟩

/-! ## The flag-with-value scenario -/

theorem flagStates_closed :
    (flagStates.all fun s =>
      [Pass.InferLeft, Pass.InferRight, Pass.InferPositional].all fun pass =>
        (List.range 3).all fun i => staysIn flagStates s pass i) = true := by
  decide

theorem flagStates_length : ∀ s ∈ flagStates, s.length = 3 := by
  decide

theorem flagStates_first : ∀ s ∈ flagStates,
    (s.get? 0).map Token.ttype = some TokenType.ContextFree ∧
    (s.get? 0).map Token.boundTo = some none := by
  decide

theorem flagStates_step (s : TokenList) (pass : Pass) (i : Nat) (s1 : TokenList)
    (hs : s ∈ flagStates) (happ : s.applyPass pass i = Except.ok s1) :
    s1 ∈ flagStates := by
  have hlen := flagStates_length s hs
  by_cases hi : i < 3
  · have h := flagStates_closed
    rw [List.all_eq_true] at h
    have h1 := h s hs
    rw [List.all_eq_true] at h1
    have h2 := h1 pass (by cases pass <;> simp)
    rw [List.all_eq_true] at h2
    have h3 := h2 i (List.mem_range.2 hi)
    unfold staysIn at h3
    rw [happ] at h3
    exact of_decide_eq_true h3
  · have hnone : s.get? i = none := List.get?_eq_none.2 (by omega)
    unfold TokenList.applyPass at happ
    rw [hnone] at happ
    cases happ

/-- C4, as the claim states it, fails: applying the three passes to each token in
list order (token by token, or pass by pass) completes, a further round changes
nothing, and `"-n"` is then not resolved to the flag type and has no `boundTo`;
`"file.txt"` is resolved to `OPERAND`. -/
theorem flagScenario_counterexample :
    flagScenario.runPasses (tokenOrder 3) = Except.ok exhaustedFlagState ∧
    exhaustedFlagState.runPasses (tokenOrder 3) = Except.ok exhaustedFlagState ∧
    flagScenario.runPasses (passOrder 3) = Except.ok keptFlagState ∧
    keptFlagState.runPasses (passOrder 3) = Except.ok keptFlagState ∧
    (exhaustedFlagState.get? 0).map Token.ttype ≠
      some (TokenType.Semantic numFlag) ∧
    (exhaustedFlagState.get? 0).map Token.boundTo ≠ some (some 1) ∧
    (keptFlagState.get? 0).map Token.ttype ≠ some (TokenType.Semantic numFlag) ∧
    (keptFlagState.get? 0).map Token.boundTo ≠ some (some 1) := by
  decide

/-- C4 (amended): in the list `["-n", "5", "file.txt"]` of the scenario, every
sequence of applications of the three passes that completes leaves `"-n"`
unresolved with `boundTo` unset; applying the three passes to each token in list
order completes, a second round changes nothing, and the list then has `"-n"`
and `"5"` unresolved with no candidate left and `"file.txt"` resolved to
`OPERAND`. -/
theorem flagScenario_outcome (steps : List (Pass × Nat)) (final : TokenList) :
    (flagScenario.runPasses steps = Except.ok final →
      (final.get? 0).map Token.ttype = some TokenType.ContextFree ∧
      (final.get? 0).map Token.boundTo = some none) ∧
    flagScenario.runPasses (tokenOrder 3) = Except.ok
      [Token.fresh 0 "-n" [], Token.fresh 1 "5" [],
        { argumentPosition := 2, ttype := TokenType.Semantic OPERAND,
          value := "file.txt", boundTo := none, semanticCandidates := [OPERAND] }] ∧
    TokenList.runPasses (tokenOrder 3)
      [Token.fresh 0 "-n" [], Token.fresh 1 "5" [],
        { argumentPosition := 2, ttype := TokenType.Semantic OPERAND,
          value := "file.txt", boundTo := none, semanticCandidates := [OPERAND] }] =
      Except.ok
      [Token.fresh 0 "-n" [], Token.fresh 1 "5" [],
        { argumentPosition := 2, ttype := TokenType.Semantic OPERAND,
          value := "file.txt", boundTo := none, semanticCandidates := [OPERAND] }] := by
  refine ⟨fun hrun => ?_, by decide, by decide⟩
  exact flagStates_first final
    (runPasses_invariant (fun s => s ∈ flagStates)
      (fun s pass i s1 hs happ => flagStates_step s pass i s1 hs happ)
      steps flagScenario final (by decide) hrun)

theorem flagScenario_outcome_witness :
    flagScenario.runPasses (passOrder 3) = Except.ok keptFlagState ∧
    (keptFlagState.get? 0).map Token.ttype = some TokenType.ContextFree ∧
    (keptFlagState.get? 0).map Token.boundTo = some none :=
  ⟨by decide, (flagScenario_outcome (passOrder 3) keptFlagState).1 (by decide)⟩

/-! ## The narrowing primitives and the resolution check -/

theorem notSingle_ne (cands : List SemanticTokenType) (h : notSingle cands)
    (c : SemanticTokenType) : cands ≠ [c] := by
  intro hc
  rw [hc] at h
  exact h rfl

/-- C13: `reduceCandidates(pred)` runs the resolution check on the token whose
candidates are the prior candidates that satisfy `pred`, in their prior order,
and these are the candidates afterwards; `setCandidate(t)` runs the resolution
check on the token whose candidates are `[t]`, and these are the candidates
afterwards. -/
theorem reduceCandidates_filter_then_check (tokens : TokenList)
    (token token1 : Token) (pred : SemanticTokenType → Bool)
    (t : SemanticTokenType) :
    token.reduceCandidates tokens pred =
      Token.possiblyConvertToSemantic tokens
        { token with semanticCandidates := token.semanticCandidates.filter pred } ∧
    (token.reduceCandidates tokens pred = Except.ok token1 →
      token1.semanticCandidates = token.semanticCandidates.filter pred) ∧
    token.setCandidate tokens t =
      Token.possiblyConvertToSemantic tokens
        { token with semanticCandidates := [t] } ∧
    (token.setCandidate tokens t = Except.ok token1 →
      token1.semanticCandidates = [t]) := by
  refine ⟨?_, reduceCandidates_candidates tokens token token1 pred, rfl,
    setCandidate_candidates tokens token token1 t⟩
  unfold Token.reduceCandidates
  rw [reduceLoop_eq_filter]

theorem reduceCandidates_filter_then_check_witness :
    mixedToken.reduceCandidates [mixedToken]
        (fun c => decide (c.PosModel.Binding ≠ Binding.RIGHT)) =
      Except.ok { argumentPosition := 0, ttype := TokenType.Semantic switch,
                  value := "-x", boundTo := none, semanticCandidates := [switch] } ∧
    [switch] = mixedToken.semanticCandidates.filter
      (fun c => decide (c.PosModel.Binding ≠ Binding.RIGHT)) ∧
    loneValue.setCandidate [loneValue] OPERAND =
      Except.ok loneValue.forcedOperand ∧
    loneValue.forcedOperand.semanticCandidates = [OPERAND] :=
  ⟨by decide,
    (reduceCandidates_filter_then_check [mixedToken] mixedToken
      { argumentPosition := 0, ttype := TokenType.Semantic switch,
        value := "-x", boundTo := none, semanticCandidates := [switch] }
      (fun c => decide (c.PosModel.Binding ≠ Binding.RIGHT)) OPERAND).2.1
      (by decide),
    by decide,
    (reduceCandidates_filter_then_check [loneValue] loneValue
      loneValue.forcedOperand (fun _ => true) OPERAND).2.2.2 (by decide)⟩

theorem possiblyConvertToSemantic_again (tokens : TokenList) (token token1 : Token)
    (h : token.possiblyConvertToSemantic tokens = Except.ok token1) :
    token1.possiblyConvertToSemantic tokens = Except.ok token1 := by
  by_cases hs : ∃ c, token.semanticCandidates = [c]
  · obtain ⟨c, hc⟩ := hs
    cases hb : c.PosModel.Binding with
    | NONE =>
      rw [possiblyConvertToSemantic_NONE tokens token c hc hb] at h
      cases h
      exact possiblyConvertToSemantic_NONE tokens _ c hc hb
    | LEFT =>
      rw [possiblyConvertToSemantic_LEFT tokens token c hc hb] at h
      cases hi : tokens.index (token.argumentPosition - 1) with
      | error e => rw [hi] at h; cases h
      | ok t =>
        rw [hi] at h
        cases h
        refine (possiblyConvertToSemantic_LEFT tokens
          { token with ttype := TokenType.Semantic c,
                       boundTo := some (token.argumentPosition - 1) }
          c hc hb).trans ?_
        show Except.map _ (tokens.index (token.argumentPosition - 1)) = _
        rw [hi]
        rfl
    | RIGHT =>
      rw [possiblyConvertToSemantic_RIGHT tokens token c hc hb] at h
      cases hi : tokens.index (token.argumentPosition + 1) with
      | error e => rw [hi] at h; cases h
      | ok t =>
        rw [hi] at h
        cases h
        refine (possiblyConvertToSemantic_RIGHT tokens
          { token with ttype := TokenType.Semantic c,
                       boundTo := some (token.argumentPosition + 1) }
          c hc hb).trans ?_
        show Except.map _ (tokens.index (token.argumentPosition + 1)) = _
        rw [hi]
        rfl
  · have hns : ∀ c, token.semanticCandidates ≠ [c] := fun c hc => hs ⟨c, hc⟩
    rw [possiblyConvertToSemantic_not_single tokens token hns] at h
    cases h
    exact possiblyConvertToSemantic_not_single tokens token hns

/-- C14: with exactly one candidate `c` and the neighbour required by `c`'s
binding present, the resolution check sets the kind to `Semantic(c)`, sets
`boundTo` to the token at `position+1` for `RIGHT`, at `position-1` for `LEFT`,
leaves it for `NONE`, and leaves the candidates; with zero or more than one
candidate the token is unchanged; running the check on its own result returns
that result. -/
theorem possiblyConvertToSemantic_spec (tokens : TokenList) (token token1 : Token)
    (c : SemanticTokenType) :
    (token.semanticCandidates = [c] → c.PosModel.Binding = Binding.NONE →
      token.possiblyConvertToSemantic tokens =
        Except.ok { token with ttype := TokenType.Semantic c }) ∧
    (token.semanticCandidates = [c] → c.PosModel.Binding = Binding.RIGHT →
      tokens.validIndex (token.argumentPosition + 1) →
      token.possiblyConvertToSemantic tokens =
        Except.ok { token with ttype := TokenType.Semantic c,
                               boundTo := some (token.argumentPosition + 1) }) ∧
    (token.semanticCandidates = [c] → c.PosModel.Binding = Binding.LEFT →
      tokens.validIndex (token.argumentPosition - 1) →
      token.possiblyConvertToSemantic tokens =
        Except.ok { token with ttype := TokenType.Semantic c,
                               boundTo := some (token.argumentPosition - 1) }) ∧
    (notSingle token.semanticCandidates →
      token.possiblyConvertToSemantic tokens = Except.ok token) ∧
    (token.possiblyConvertToSemantic tokens = Except.ok token1 →
      token1.possiblyConvertToSemantic tokens = Except.ok token1) := by
  refine ⟨possiblyConvertToSemantic_NONE tokens token c, ?_, ?_, ?_,
    possiblyConvertToSemantic_again tokens token token1⟩
  · intro hc hb hv
    rw [possiblyConvertToSemantic_RIGHT tokens token c hc hb]
    obtain ⟨t, ht⟩ := index_ok_of_valid tokens _ hv
    rw [ht]
    rfl
  · intro hc hb hv
    rw [possiblyConvertToSemantic_LEFT tokens token c hc hb]
    obtain ⟨t, ht⟩ := index_ok_of_valid tokens _ hv
    rw [ht]
    rfl
  · intro hns
    exact possiblyConvertToSemantic_not_single tokens token
      (notSingle_ne _ hns)

theorem possiblyConvertToSemantic_spec_witness :
    (Token.fresh 0 "-n" [numFlag]).possiblyConvertToSemantic
        [Token.fresh 0 "-n" [numFlag], Token.fresh 1 "5" [optValue]] =
      Except.ok { argumentPosition := 0, ttype := TokenType.Semantic numFlag,
                  value := "-n", boundTo := some 1,
                  semanticCandidates := [numFlag] } ∧
    (Token.fresh 1 "5" [optValue]).possiblyConvertToSemantic
        [Token.fresh 0 "-n" [numFlag], Token.fresh 1 "5" [optValue]] =
      Except.ok { argumentPosition := 1, ttype := TokenType.Semantic optValue,
                  value := "5", boundTo := some 0,
                  semanticCandidates := [optValue] } ∧
    loneWord.possiblyConvertToSemantic [loneWord] =
      Except.ok { loneWord with ttype := TokenType.Semantic OPERAND } ∧
    mixedToken.possiblyConvertToSemantic [mixedToken] = Except.ok mixedToken ∧
    resolvedValue.possiblyConvertToSemantic [loneFlag, resolvedValue] =
      Except.ok resolvedValue :=
  ⟨(possiblyConvertToSemantic_spec
      [Token.fresh 0 "-n" [numFlag], Token.fresh 1 "5" [optValue]]
      (Token.fresh 0 "-n" [numFlag]) loneWord numFlag).2.1
      (by decide) (by decide) (by decide),
    (possiblyConvertToSemantic_spec
      [Token.fresh 0 "-n" [numFlag], Token.fresh 1 "5" [optValue]]
      (Token.fresh 1 "5" [optValue]) loneWord optValue).2.2.1
      (by decide) (by decide) (by decide),
    (possiblyConvertToSemantic_spec [loneWord] loneWord loneWord OPERAND).1
      (by decide) (by decide),
    (possiblyConvertToSemantic_spec [mixedToken] mixedToken mixedToken
      OPERAND).2.2.2.1 (by decide),
    (possiblyConvertToSemantic_spec [loneFlag, resolvedValue]
      (Token.fresh 1 "5" [optValue]) resolvedValue optValue).2.2.2.2
      (by decide)⟩

/-! ## The rules of `InferLeft` and `InferRight` -/

theorem index_ok_valid (tokens : TokenList) (i : Int) (t : Token)
    (h : tokens.index i = Except.ok t) : tokens.validIndex i := by
  unfold TokenList.validIndex
  by_contra hv
  rw [(index_error_iff tokens i).2 hv] at h
  cases h

theorem reduceCandidates_eq (tokens : TokenList) (token : Token)
    (pred : SemanticTokenType → Bool) :
    token.reduceCandidates tokens pred =
      Token.possiblyConvertToSemantic tokens
        { token with semanticCandidates := token.semanticCandidates.filter pred } := by
  unfold Token.reduceCandidates
  rw [reduceLoop_eq_filter]

theorem InferLeft_unresolved (tokens : TokenList) (token left : Token)
    (hcf : token.ttype = TokenType.ContextFree)
    (hp : 0 < token.argumentPosition)
    (hl : tokens.index (token.argumentPosition - 1) = Except.ok left) :
    token.InferLeft tokens =
      if left.IsBoundToOneOf [Binding.NONE, Binding.LEFT] then
        if token.IsOption then
          Token.possiblyConvertToSemantic tokens
            { token with semanticCandidates := (List.filter
              (fun c => decide (c.PosModel.Binding ≠ Binding.LEFT))
              token.semanticCandidates) }
        else Except.ok token.forcedOperand
      else if left.IsBoundTo Binding.RIGHT then
        Token.possiblyConvertToSemantic tokens
          { token with semanticCandidates := (List.filter
              (fun c => decide (c.PosModel.Binding = Binding.LEFT))
              token.semanticCandidates) }
      else Except.ok token := by
  unfold Token.InferLeft
  simp only [hcf, gt_iff_lt, hp, if_true, hl, bind, Except.bind]
  cases left.IsBoundToOneOf [Binding.NONE, Binding.LEFT] with
  | true =>
    cases token.IsOption with
    | true => simp [reduceCandidates_eq, hcf]
    | false =>
      simp only [Bool.not_false, if_true]
      exact setCandidate_OPERAND tokens token
  | false =>
    cases left.IsBoundTo Binding.RIGHT with
    | true => simp [reduceCandidates_eq, hcf]
    | false => simp

theorem InferLeft_first (tokens : TokenList) (token : Token)
    (h0 : token.argumentPosition = 0) :
    token.InferLeft tokens = Except.ok token := by
  unfold Token.InferLeft
  cases token.ttype <;> simp [h0]

theorem InferRight_unresolved (tokens : TokenList) (token right : Token)
    (hcf : token.ttype = TokenType.ContextFree)
    (hr : tokens.index (token.argumentPosition + 1) = Except.ok right) :
    token.InferRight tokens =
      if token.IsOption && right.IsBoundToOneOf [Binding.NONE, Binding.RIGHT] then
        Token.possiblyConvertToSemantic tokens
          { token with semanticCandidates := (List.filter
              (fun c => decide (c.PosModel.Binding ≠ Binding.RIGHT))
              token.semanticCandidates) }
      else Except.ok token := by
  have hv := index_ok_valid tokens _ right hr
  unfold TokenList.validIndex at hv
  have hguard : token.argumentPosition < (tokens.length : Int) + 1 := by omega
  unfold Token.InferRight
  simp only [hcf, hguard, decide_True, Bool.and_true, hr, bind, Except.bind]
  cases token.IsOption with
  | false => simp
  | true =>
    cases right.IsBoundToOneOf [Binding.NONE, Binding.RIGHT] with
    | true => simp [reduceCandidates_eq, hcf]
    | false => simp

theorem InferRight_not_option (tokens : TokenList) (token : Token)
    (hopt : token.IsOption = false) :
    token.InferRight tokens = Except.ok token := by
  unfold Token.InferRight
  cases token.ttype <;> simp [hopt]

/-- C11: for an unresolved token of the list, `InferLeft` leaves it unchanged at
position 0; at a position `p > 0` the left neighbour exists, and if it satisfies
`IsBoundToOneOf({NONE, LEFT})` the token is forced to `OPERAND` when `IsOption()`
is false and otherwise keeps, in order, the candidates not bound `LEFT` and
undergoes the resolution check; else if the neighbour satisfies
`IsBoundTo(RIGHT)` the token keeps, in order, the candidates bound `LEFT` and
undergoes the resolution check; in the remaining case it is unchanged. -/
theorem InferLeft_rule (tokens : TokenList) (token left : Token)
    (hcf : token.ttype = TokenType.ContextFree)
    (hpos : tokens.validIndex token.argumentPosition) :
    (token.argumentPosition = 0 → token.InferLeft tokens = Except.ok token) ∧
    (0 < token.argumentPosition →
      ∃ nbr, tokens.index (token.argumentPosition - 1) = Except.ok nbr) ∧
    (0 < token.argumentPosition →
      tokens.index (token.argumentPosition - 1) = Except.ok left →
      (left.IsBoundToOneOf [Binding.NONE, Binding.LEFT] = true →
        token.IsOption = false →
        token.InferLeft tokens = Except.ok
          { token with ttype := TokenType.Semantic OPERAND,
                       semanticCandidates := [OPERAND] }) ∧
      (left.IsBoundToOneOf [Binding.NONE, Binding.LEFT] = true →
        token.IsOption = true →
        token.InferLeft tokens = Token.possiblyConvertToSemantic tokens
          { token with semanticCandidates := (List.filter
              (fun c => decide (c.PosModel.Binding ≠ Binding.LEFT))
              token.semanticCandidates) }) ∧
      (left.IsBoundToOneOf [Binding.NONE, Binding.LEFT] = false →
        left.IsBoundTo Binding.RIGHT = true →
        token.InferLeft tokens = Token.possiblyConvertToSemantic tokens
          { token with semanticCandidates := (List.filter
              (fun c => decide (c.PosModel.Binding = Binding.LEFT))
              token.semanticCandidates) }) ∧
      (left.IsBoundToOneOf [Binding.NONE, Binding.LEFT] = false →
        left.IsBoundTo Binding.RIGHT = false →
        token.InferLeft tokens = Except.ok token)) := by
  refine ⟨InferLeft_first tokens token, ?_, ?_⟩
  · intro hp
    apply index_ok_of_valid
    unfold TokenList.validIndex at hpos
    omega
  · intro hp hl
    have h := InferLeft_unresolved tokens token left hcf hp hl
    refine ⟨?_, ?_, ?_, ?_⟩
    · intro h1 h2
      rw [h, h1, h2]
      rfl
    · intro h1 h2
      rw [h, h1, h2]
      rfl
    · intro h1 h2
      rw [h, h1, h2]
      rfl
    · intro h1 h2
      rw [h, h1, h2]
      rfl

theorem InferLeft_rule_witness :
    loneWord.InferLeft [loneWord] = Except.ok loneWord ∧
    (∃ nbr, TokenList.index [firstSwitch, secondWord]
      (secondWord.argumentPosition - 1) = Except.ok nbr) ∧
    secondWord.InferLeft [firstSwitch, secondWord] = Except.ok
      { secondWord with ttype := TokenType.Semantic OPERAND,
                        semanticCandidates := [OPERAND] } ∧
    secondMixed.InferLeft [firstSwitch, secondMixed] =
      Token.possiblyConvertToSemantic [firstSwitch, secondMixed]
        { secondMixed with semanticCandidates := (List.filter
            (fun c => decide (c.PosModel.Binding ≠ Binding.LEFT))
            secondMixed.semanticCandidates) } ∧
    freshValue.InferLeft [loneFlag, freshValue] =
      Token.possiblyConvertToSemantic [loneFlag, freshValue]
        { freshValue with semanticCandidates := (List.filter
            (fun c => decide (c.PosModel.Binding = Binding.LEFT))
            freshValue.semanticCandidates) } ∧
    secondWord.InferLeft [mixedToken, secondWord] = Except.ok secondWord :=
  ⟨(InferLeft_rule [loneWord] loneWord loneWord (by decide) (by decide)).1
      (by decide),
    (InferLeft_rule [firstSwitch, secondWord] secondWord firstSwitch
      (by decide) (by decide)).2.1 (by decide),
    ((InferLeft_rule [firstSwitch, secondWord] secondWord firstSwitch
      (by decide) (by decide)).2.2 (by decide) (by decide)).1
      (by decide) (by decide),
    ((InferLeft_rule [firstSwitch, secondMixed] secondMixed firstSwitch
      (by decide) (by decide)).2.2 (by decide) (by decide)).2.1
      (by decide) (by decide),
    ((InferLeft_rule [loneFlag, freshValue] freshValue loneFlag
      (by decide) (by decide)).2.2 (by decide) (by decide)).2.2.1
      (by decide) (by decide),
    ((InferLeft_rule [mixedToken, secondWord] secondWord mixedToken
      (by decide) (by decide)).2.2 (by decide) (by decide)).2.2.2
      (by decide) (by decide)⟩

/-- C12: for an unresolved token whose right neighbour exists, `InferRight`
leaves the token unchanged when `IsOption()` is false for it or when the right
neighbour does not satisfy `IsBoundToOneOf({NONE, RIGHT})`; otherwise the token
keeps, in order, the candidates not bound `RIGHT` and undergoes the resolution
check. -/
theorem InferRight_rule (tokens : TokenList) (token right : Token)
    (hcf : token.ttype = TokenType.ContextFree) :
    (tokens.validIndex (token.argumentPosition + 1) →
      ∃ nbr, tokens.index (token.argumentPosition + 1) = Except.ok nbr) ∧
    (tokens.index (token.argumentPosition + 1) = Except.ok right →
      (token.IsOption = false → token.InferRight tokens = Except.ok token) ∧
      (right.IsBoundToOneOf [Binding.NONE, Binding.RIGHT] = false →
        token.InferRight tokens = Except.ok token) ∧
      (token.IsOption = true →
        right.IsBoundToOneOf [Binding.NONE, Binding.RIGHT] = true →
        token.InferRight tokens = Token.possiblyConvertToSemantic tokens
          { token with semanticCandidates := (List.filter
              (fun c => decide (c.PosModel.Binding ≠ Binding.RIGHT))
              token.semanticCandidates) })) := by
  refine ⟨index_ok_of_valid tokens _, fun hr => ?_⟩
  have h := InferRight_unresolved tokens token right hcf hr
  refine ⟨?_, ?_, ?_⟩
  · intro h1
    rw [h, h1]
    rfl
  · intro h1
    rw [h, h1, Bool.and_false]
    rfl
  · intro h1 h2
    rw [h, h1, h2]
    rfl

theorem InferRight_rule_witness :
    (∃ nbr, TokenList.index [loneWord, secondWord]
      (loneWord.argumentPosition + 1) = Except.ok nbr) ∧
    loneWord.InferRight [loneWord, secondWord] = Except.ok loneWord ∧
    loneFlag.InferRight [loneFlag, freshValue] = Except.ok loneFlag ∧
    mixedToken.InferRight [mixedToken, secondWord] =
      Token.possiblyConvertToSemantic [mixedToken, secondWord]
        { mixedToken with semanticCandidates := (List.filter
            (fun c => decide (c.PosModel.Binding ≠ Binding.RIGHT))
            mixedToken.semanticCandidates) } :=
  ⟨(InferRight_rule [loneWord, secondWord] loneWord secondWord
      (by decide)).1 (by decide),
    ((InferRight_rule [loneWord, secondWord] loneWord secondWord
      (by decide)).2 (by decide)).1 (by decide),
    ((InferRight_rule [loneFlag, freshValue] loneFlag freshValue
      (by decide)).2 (by decide)).2.1 (by decide),
    ((InferRight_rule [mixedToken, secondWord] mixedToken secondWord
      (by decide)).2 (by decide)).2.2 (by decide) (by decide)⟩

/-! ## Queries on unresolved tokens -/

theorem IsOption_unresolved (token : Token)
    (hcf : token.ttype = TokenType.ContextFree) :
    token.IsOption = true ↔
      token.semanticCandidates ≠ [] ∧
      ∀ c ∈ token.semanticCandidates, c.PosModel.IsOption = true := by
  unfold Token.IsOption
  rw [hcf]
  cases hc : token.semanticCandidates with
  | nil => simp [isOptionLoop]
  | cons c rest => simp [isOptionLoop_cons_iff]

theorem IsBoundToOneOf_unresolved (token : Token) (S : Bindings)
    (hcf : token.ttype = TokenType.ContextFree) :
    token.IsBoundToOneOf S = true ↔
      token.semanticCandidates ≠ [] ∧
      ∀ c ∈ token.semanticCandidates, c.PosModel.Binding ∈ S := by
  unfold Token.IsBoundToOneOf
  rw [hcf]
  cases hc : token.semanticCandidates with
  | nil => simp [isBoundToOneOfLoop]
  | cons c rest => simp [isBoundToOneOfLoop_cons_iff]

theorem IsBoundTo_unresolved (token : Token) (b : Binding)
    (hcf : token.ttype = TokenType.ContextFree) :
    token.IsBoundTo b = true ↔
      ∀ c ∈ token.semanticCandidates, c.PosModel.Binding = b := by
  unfold Token.IsBoundTo
  rw [hcf]
  exact isBoundToLoop_true b token.semanticCandidates

theorem IsOption_exhausted (token : Token)
    (hcf : token.ttype = TokenType.ContextFree)
    (hempty : token.semanticCandidates = []) : token.IsOption = false := by
  unfold Token.IsOption
  rw [hcf, hempty]
  rfl

theorem possiblyConvertToSemantic_nil (tokens : TokenList) (token : Token)
    (hempty : token.semanticCandidates = []) :
    token.possiblyConvertToSemantic tokens = Except.ok token :=
  possiblyConvertToSemantic_not_single tokens token
    (fun c hc => by rw [hempty] at hc; cases hc)

/-! ## Adjacent options bound to the right -/

/-- C17, as the claim states it, fails: in `["-a", "-b"]` with the single
candidate `F` (a `RIGHT`-bound option) on both tokens, `InferRight` on `"-a"`
empties the candidates of `"-a"` and `InferLeft` on `"-b"` empties the
candidates of `"-b"`. -/
theorem adjacent_options_counterexample :
    allRightOptions [numFlag] ∧
    (optionA [numFlag]).InferRight [optionA [numFlag], optionB [numFlag]] =
      Except.ok (optionA []) ∧
    (optionB [numFlag]).InferLeft [optionA [numFlag], optionB [numFlag]] =
      Except.ok (optionB []) ∧
    (optionA []).semanticCandidates ≠ (optionA [numFlag]).semanticCandidates ∧
    (optionB []).semanticCandidates ≠ (optionB [numFlag]).semanticCandidates := by
  decide

/-- C17 (amended): in `["-a", "-b"]` where both tokens are unresolved, have at
least one candidate, and have only `RIGHT`-bound option candidates, `InferLeft`
on `"-a"` changes nothing, `InferRight` on `"-a"` leaves `"-a"` unresolved with no
candidate, and `InferLeft` on `"-b"` leaves `"-b"` unresolved with no candidate;
no call assigns a type. -/
theorem adjacent_options_emptied (ca cb : List SemanticTokenType)
    (hca : ca ≠ []) (hcb : cb ≠ [])
    (ha : allRightOptions ca) (hb : allRightOptions cb) :
    (optionA ca).InferLeft [optionA ca, optionB cb] = Except.ok (optionA ca) ∧
    (optionA ca).InferRight [optionA ca, optionB cb] = Except.ok (optionA []) ∧
    (optionB cb).InferLeft [optionA ca, optionB cb] = Except.ok (optionB []) := by
  refine ⟨InferLeft_first _ _ rfl, ?_, ?_⟩
  · have hr : TokenList.index [optionA ca, optionB cb]
        ((optionA ca).argumentPosition + 1) = Except.ok (optionB cb) := rfl
    rw [InferRight_unresolved _ _ _ rfl hr]
    have hopt : (optionA ca).IsOption = true :=
      (IsOption_unresolved _ rfl).2 ⟨hca, fun c hc => (ha c hc).2⟩
    have hone : (optionB cb).IsBoundToOneOf [Binding.NONE, Binding.RIGHT] = true :=
      (IsBoundToOneOf_unresolved _ _ rfl).2
        ⟨hcb, fun c hc => by rw [(hb c hc).1]; decide⟩
    have hfil : List.filter
        (fun c => decide (c.PosModel.Binding ≠ Binding.RIGHT))
        (optionA ca).semanticCandidates = [] := by
      rw [List.filter_eq_nil_iff]
      intro c hc
      simp [(ha c hc).1]
    rw [hopt, hone, hfil]
    exact possiblyConvertToSemantic_nil [optionA ca, optionB cb] (optionA []) rfl
  · have hl : TokenList.index [optionA ca, optionB cb]
        ((optionB cb).argumentPosition - 1) = Except.ok (optionA ca) := rfl
    rw [InferLeft_unresolved _ _ _ rfl (by show (0 : Int) < 1; decide) hl]
    have hone : (optionA ca).IsBoundToOneOf [Binding.NONE, Binding.LEFT] = false := by
      cases h : (optionA ca).IsBoundToOneOf [Binding.NONE, Binding.LEFT] with
      | false => rfl
      | true =>
        exfalso
        obtain ⟨_, hall⟩ := (IsBoundToOneOf_unresolved _ _ rfl).1 h
        cases hq : ca with
        | nil => exact hca hq
        | cons c rest =>
          have hc : c ∈ ca := by rw [hq]; exact List.mem_cons_self c rest
          have h1 := hall c hc
          rw [(ha c hc).1] at h1
          revert h1
          decide
    have hbound : (optionA ca).IsBoundTo Binding.RIGHT = true :=
      (IsBoundTo_unresolved _ _ rfl).2 (fun c hc => (ha c hc).1)
    have hfil : List.filter
        (fun c => decide (c.PosModel.Binding = Binding.LEFT))
        (optionB cb).semanticCandidates = [] := by
      rw [List.filter_eq_nil_iff]
      intro c hc
      simp [(hb c hc).1]
    rw [hone, hbound, hfil]
    exact possiblyConvertToSemantic_nil [optionA ca, optionB cb] (optionB []) rfl

theorem adjacent_options_emptied_witness :
    ([numFlag] ≠ [] ∧ allRightOptions [numFlag]) ∧
    (optionA [numFlag]).InferLeft [optionA [numFlag], optionB [numFlag]] =
      Except.ok (optionA [numFlag]) ∧
    (optionA [numFlag]).InferRight [optionA [numFlag], optionB [numFlag]] =
      Except.ok (optionA []) ∧
    (optionB [numFlag]).InferLeft [optionA [numFlag], optionB [numFlag]] =
      Except.ok (optionB []) :=
  ⟨⟨by decide, by decide⟩,
    adjacent_options_emptied [numFlag] [numFlag] (by decide) (by decide)
      (by decide) (by decide)⟩

/-! ## Tokens with no candidate left -/

theorem eq_of_candidates_nil (token : Token)
    (hempty : token.semanticCandidates = []) (pred : SemanticTokenType → Bool) :
    ({ token with semanticCandidates := List.filter pred token.semanticCandidates } :
      Token) = token := by
  cases token
  simp only at hempty
  subst hempty
  rfl

/-- C18, as the claim states it, fails: `InferPositional` on a lone unresolved
token with no candidate resolves it to `OPERAND`, and so does `InferLeft` on an
unresolved token with no candidate whose left neighbour is a switch. -/
theorem exhausted_counterexample :
    exhaustedToken.ttype = TokenType.ContextFree ∧
    exhaustedToken.semanticCandidates = [] ∧
    exhaustedToken.InferPositional [exhaustedToken] = Except.ok
      { argumentPosition := 0, ttype := TokenType.Semantic OPERAND, value := "x",
        boundTo := none, semanticCandidates := [OPERAND] } ∧
    secondExhausted.ttype = TokenType.ContextFree ∧
    secondExhausted.semanticCandidates = [] ∧
    secondExhausted.InferLeft [firstSwitch, secondExhausted] = Except.ok
      { argumentPosition := 1, ttype := TokenType.Semantic OPERAND, value := "x",
        boundTo := none, semanticCandidates := [OPERAND] } := by
  decide

/-- C18 (amended): for an unresolved token of the list with no candidate, the
three passes complete without failure; `InferRight` leaves it unchanged;
`InferPositional` leaves it unchanged unless it is at the last position, where
it resolves it to `OPERAND` with candidates `[OPERAND]`; `InferLeft` leaves it
unchanged at position 0 and when the left neighbour does not satisfy
`IsBoundToOneOf({NONE, LEFT})`, and resolves it to `OPERAND` with candidates
`[OPERAND]` when the left neighbour does. -/
theorem exhausted_token_passes (tokens : TokenList) (token left : Token)
    (hcf : token.ttype = TokenType.ContextFree)
    (hempty : token.semanticCandidates = [])
    (hpos : tokens.validIndex token.argumentPosition) :
    token.InferRight tokens = Except.ok token ∧
    (token.argumentPosition ≠ (tokens.length : Int) - 1 →
      token.InferPositional tokens = Except.ok token) ∧
    (token.argumentPosition = (tokens.length : Int) - 1 →
      token.InferPositional tokens = Except.ok token.forcedOperand) ∧
    (token.argumentPosition = 0 → token.InferLeft tokens = Except.ok token) ∧
    (0 < token.argumentPosition →
      ∃ nbr, tokens.index (token.argumentPosition - 1) = Except.ok nbr) ∧
    (0 < token.argumentPosition →
      tokens.index (token.argumentPosition - 1) = Except.ok left →
      (left.IsBoundToOneOf [Binding.NONE, Binding.LEFT] = true →
        token.InferLeft tokens = Except.ok token.forcedOperand) ∧
      (left.IsBoundToOneOf [Binding.NONE, Binding.LEFT] = false →
        token.InferLeft tokens = Except.ok token)) := by
  have hopt := IsOption_exhausted token hcf hempty
  refine ⟨InferRight_not_option tokens token hopt, ?_, ?_,
    InferLeft_first tokens token, ?_, ?_⟩
  · intro hne
    unfold Token.InferPositional
    simp [hne]
  · intro hlast
    have hset := setCandidate_OPERAND tokens token
    simp only [Token.InferPositional, if_pos hlast, hopt, Bool.not_false, if_true]
    exact hset
  · intro hp
    apply index_ok_of_valid
    unfold TokenList.validIndex at hpos
    omega
  · intro hp hl
    have h := InferLeft_unresolved tokens token left hcf hp hl
    refine ⟨?_, ?_⟩
    · intro h1
      rw [h, h1, hopt]
      rfl
    · intro h1
      rw [h, h1]
      cases left.IsBoundTo Binding.RIGHT with
      | false => rfl
      | true =>
        simp only [if_true, Bool.false_eq_true, if_false]
        rw [eq_of_candidates_nil token hempty]
        exact possiblyConvertToSemantic_nil tokens token hempty

theorem exhausted_token_passes_witness :
    (secondExhausted.ttype = TokenType.ContextFree ∧
      secondExhausted.semanticCandidates = [] ∧
      TokenList.validIndex [loneFlag, secondExhausted, secondWord]
        secondExhausted.argumentPosition) ∧
    secondExhausted.InferRight [loneFlag, secondExhausted, secondWord] =
      Except.ok secondExhausted ∧
    secondExhausted.InferPositional [loneFlag, secondExhausted, secondWord] =
      Except.ok secondExhausted ∧
    secondExhausted.InferPositional [firstSwitch, secondExhausted] =
      Except.ok secondExhausted.forcedOperand ∧
    exhaustedToken.InferLeft [exhaustedToken] = Except.ok exhaustedToken ∧
    secondExhausted.InferLeft [firstSwitch, secondExhausted] =
      Except.ok secondExhausted.forcedOperand ∧
    secondExhausted.InferLeft [loneFlag, secondExhausted, secondWord] =
      Except.ok secondExhausted :=
  ⟨⟨by decide, by decide, by decide⟩,
    (exhausted_token_passes [loneFlag, secondExhausted, secondWord]
      secondExhausted loneFlag (by decide) (by decide) (by decide)).1,
    (exhausted_token_passes [loneFlag, secondExhausted, secondWord]
      secondExhausted loneFlag (by decide) (by decide) (by decide)).2.1
      (by decide),
    (exhausted_token_passes [firstSwitch, secondExhausted]
      secondExhausted firstSwitch (by decide) (by decide) (by decide)).2.2.1
      (by decide),
    (exhausted_token_passes [exhaustedToken] exhaustedToken exhaustedToken
      (by decide) (by decide) (by decide)).2.2.2.1 (by decide),
    ((exhausted_token_passes [firstSwitch, secondExhausted]
      secondExhausted firstSwitch (by decide) (by decide) (by decide)).2.2.2.2.2
      (by decide) (by decide)).1 (by decide),
    ((exhausted_token_passes [loneFlag, secondExhausted, secondWord]
      secondExhausted loneFlag (by decide) (by decide) (by decide)).2.2.2.2.2
      (by decide) (by decide)).2 (by decide)⟩

/-! ## The `boundTo` invariant -/

/-- C15 fails on the code: from the unresolved list `["-n", "5"]` with `boundTo`
unset, `InferLeft` on `"5"` resolves it to the left-bound value type with
`boundTo` pointing at `"-n"`, and `InferPositional` on `"5"` then makes it
`Semantic(OPERAND)`, a type bound `NONE`, with `boundTo` still set. -/
theorem boundTo_stale_after_InferPositional :
    TokenList.runPasses [(Pass.InferLeft, 1), (Pass.InferPositional, 1)]
        [loneFlag, freshValue] =
      Except.ok [loneFlag,
        { argumentPosition := 1, ttype := TokenType.Semantic OPERAND, value := "5",
          boundTo := some 0, semanticCandidates := [OPERAND] }] ∧
    OPERAND.PosModel.Binding = Binding.NONE ∧
    loneFlag.ttype = TokenType.ContextFree ∧ loneFlag.boundTo = none ∧
    freshValue.ttype = TokenType.ContextFree ∧ freshValue.boundTo = none := by
  decide

/-! ## Slots of a list -/

theorem get?_set_same (l : TokenList) (i : Nat) (a b : Token)
    (h : l.get? i = some a) : (l.set i b).get? i = some b := by
  induction l generalizing i with
  | nil => cases h
  | cons x rest ih =>
    cases i with
    | zero => rfl
    | succ j => exact ih j h

theorem get?_set_other (l : TokenList) (i j : Nat) (b : Token) (hne : i ≠ j) :
    (l.set i b).get? j = l.get? j := by
  induction l generalizing i j with
  | nil => rfl
  | cons x rest ih =>
    cases i with
    | zero =>
      cases j with
      | zero => exact absurd rfl hne
      | succ k => rfl
    | succ i1 =>
      cases j with
      | zero => rfl
      | succ k => exact ih i1 k (fun h => hne (by rw [h]))

theorem set_get?_same (l : TokenList) (i : Nat) (a : Token)
    (h : l.get? i = some a) : l.set i a = l := by
  induction l generalizing i with
  | nil => rfl
  | cons x rest ih =>
    cases i with
    | zero =>
      simp only [List.get?_cons_zero, Option.some.injEq] at h
      rw [h]
      rfl
    | succ j =>
      simp only [List.set_cons_succ]
      rw [ih j h]

theorem applyPass_ok (tokens : TokenList) (pass : Pass) (i : Nat)
    (tokens1 : TokenList) (h : tokens.applyPass pass i = Except.ok tokens1) :
    ∃ token token1, tokens.get? i = some token ∧
      pass.run tokens token = Except.ok token1 ∧ tokens1 = tokens.set i token1 := by
  unfold TokenList.applyPass at h
  cases hg : tokens.get? i with
  | none =>
    rw [hg] at h
    cases h
  | some token =>
    rw [hg] at h
    dsimp only at h
    cases hr : pass.run tokens token with
    | error e =>
      rw [hr] at h
      cases h
    | ok token1 =>
      rw [hr] at h
      cases h
      exact ⟨token, token1, rfl, hr, rfl⟩

theorem possiblyConvertToSemantic_ok_cases (tokens : TokenList)
    (token token1 : Token)
    (h : token.possiblyConvertToSemantic tokens = Except.ok token1) :
    token1.argumentPosition = token.argumentPosition ∧
    token1.value = token.value ∧
    token1.semanticCandidates = token.semanticCandidates ∧
    ((token1 = token ∧ ∀ c, token.semanticCandidates ≠ [c]) ∨
      (∃ c, token.semanticCandidates = [c] ∧
        token1.ttype = TokenType.Semantic c)) := by
  by_cases hs : ∃ c, token.semanticCandidates = [c]
  · obtain ⟨c, hc⟩ := hs
    cases hb : c.PosModel.Binding with
    | NONE =>
      rw [possiblyConvertToSemantic_NONE tokens token c hc hb] at h
      cases h
      exact ⟨rfl, rfl, rfl, Or.inr ⟨c, hc, rfl⟩⟩
    | LEFT =>
      rw [possiblyConvertToSemantic_LEFT tokens token c hc hb] at h
      cases hi : tokens.index (token.argumentPosition - 1) with
      | error e => rw [hi] at h; cases h
      | ok t =>
        rw [hi] at h
        cases h
        exact ⟨rfl, rfl, rfl, Or.inr ⟨c, hc, rfl⟩⟩
    | RIGHT =>
      rw [possiblyConvertToSemantic_RIGHT tokens token c hc hb] at h
      cases hi : tokens.index (token.argumentPosition + 1) with
      | error e => rw [hi] at h; cases h
      | ok t =>
        rw [hi] at h
        cases h
        exact ⟨rfl, rfl, rfl, Or.inr ⟨c, hc, rfl⟩⟩
  · have hns : ∀ c, token.semanticCandidates ≠ [c] := fun c hc => hs ⟨c, hc⟩
    rw [possiblyConvertToSemantic_not_single tokens token hns] at h
    cases h
    exact ⟨rfl, rfl, rfl, Or.inl ⟨rfl, hns⟩⟩

theorem InferRight_ok_cases (tokens : TokenList) (token token1 : Token)
    (h : token.InferRight tokens = Except.ok token1) :
    token1 = token ∨
      (token.ttype = TokenType.ContextFree ∧
        Token.possiblyConvertToSemantic tokens
          { token with semanticCandidates := (List.filter
              (fun c => decide (c.PosModel.Binding ≠ Binding.RIGHT))
              token.semanticCandidates) } = Except.ok token1) := by
  cases htt : token.ttype with
  | Semantic t =>
    rw [InferRight_Semantic tokens token t htt] at h
    cases h
    exact Or.inl rfl
  | ContextFree =>
    cases hopt : token.IsOption with
    | false =>
      rw [InferRight_not_option tokens token hopt] at h
      cases h
      exact Or.inl rfl
    | true =>
      cases hi : tokens.index (token.argumentPosition + 1) with
      | error e =>
        unfold Token.InferRight at h
        simp only [htt, hopt, Bool.true_and, hi, bind, Except.bind] at h
        split at h
        · cases h
        · cases h
          exact Or.inl rfl
      | ok right =>
        rw [InferRight_unresolved tokens token right htt hi, hopt] at h
        cases hone : right.IsBoundToOneOf [Binding.NONE, Binding.RIGHT] with
        | false =>
          rw [hone] at h
          cases h
          exact Or.inl rfl
        | true =>
          rw [hone, htt] at h
          refine Or.inr ⟨rfl, ?_⟩
          simpa using h

theorem InferPositional_ok_cases (tokens : TokenList) (token token1 : Token)
    (h : token.InferPositional tokens = Except.ok token1) :
    token1 = token ∨ token1 = token.forcedOperand := by
  unfold Token.InferPositional at h
  simp only at h
  split at h
  · split at h
    · rw [setCandidate_OPERAND] at h
      cases h
      exact Or.inr rfl
    · cases h
      exact Or.inl rfl
  · cases h
    exact Or.inl rfl

/-! ## The first token -/

theorem pass_keeps_first (tokens : TokenList) (pass : Pass) (t t1 : Token)
    (hp : t.argumentPosition = 0)
    (hnr : ∀ c, t.ttype = TokenType.Semantic c → c.PosModel.Binding ≠ Binding.RIGHT)
    (h : pass.run tokens t = Except.ok t1) :
    t1.argumentPosition = 0 ∧
    ∀ c, t1.ttype = TokenType.Semantic c → c.PosModel.Binding ≠ Binding.RIGHT := by
  cases pass with
  | InferLeft =>
    simp only [Pass.run] at h
    rw [InferLeft_first tokens t hp] at h
    cases h
    exact ⟨hp, hnr⟩
  | InferRight =>
    simp only [Pass.run] at h
    rcases InferRight_ok_cases tokens t t1 h with h1 | ⟨_, h1⟩
    · rw [h1]
      exact ⟨hp, hnr⟩
    · obtain ⟨hpos, _, hcands, hcase⟩ :=
        possiblyConvertToSemantic_ok_cases tokens _ t1 h1
      refine ⟨hpos.trans hp, ?_⟩
      rcases hcase with ⟨heq, _⟩ | ⟨c, hc, htt⟩
      · intro c hc
        rw [heq] at hc
        exact hnr c hc
      · intro d hd
        rw [htt] at hd
        cases hd
        have hmem : c ∈ List.filter
            (fun c => decide (c.PosModel.Binding ≠ Binding.RIGHT))
            t.semanticCandidates := by
          have hc1 : List.filter
              (fun c => decide (c.PosModel.Binding ≠ Binding.RIGHT))
              t.semanticCandidates = [c] := hc
          rw [hc1]
          exact List.mem_singleton.2 rfl
        exact of_decide_eq_true (List.mem_filter.1 hmem).2
  | InferPositional =>
    simp only [Pass.run] at h
    rcases InferPositional_ok_cases tokens t t1 h with h1 | h1
    · rw [h1]
      exact ⟨hp, hnr⟩
    · rw [h1]
      refine ⟨hp, ?_⟩
      intro c hc
      have : c = OPERAND := by
        simp only [Token.forcedOperand, TokenType.Semantic.injEq] at hc
        exact hc.symm
      rw [this]
      decide

/-- C19: if the token in slot 0 is at position 0 and unresolved, then after every
sequence of applications of `InferLeft`, `InferRight` and `InferPositional` to
tokens of the list that completes, the token in slot 0 is not resolved to a type
bound `RIGHT`. -/
theorem first_never_right_bound (tokens final : TokenList) (t0 : Token)
    (steps : List (Pass × Nat))
    (h0 : tokens.get? 0 = some t0) (hp : t0.argumentPosition = 0)
    (hcf : t0.ttype = TokenType.ContextFree)
    (hrun : tokens.runPasses steps = Except.ok final) :
    ∃ tf, final.get? 0 = some tf ∧
      ∀ c, tf.ttype = TokenType.Semantic c → c.PosModel.Binding ≠ Binding.RIGHT := by
  have hinv := runPasses_invariant
    (fun s => ∃ t, s.get? 0 = some t ∧ t.argumentPosition = 0 ∧
      ∀ c, t.ttype = TokenType.Semantic c → c.PosModel.Binding ≠ Binding.RIGHT)
    ?_ steps tokens final
    ⟨t0, h0, hp, fun c hc => by rw [hcf] at hc; cases hc⟩ hrun
  · obtain ⟨tf, hf, _, hnr⟩ := hinv
    exact ⟨tf, hf, hnr⟩
  · intro s pass i s1 hs happ
    obtain ⟨t, ht, htp, hnr⟩ := hs
    obtain ⟨token, token1, hg, hr, hset⟩ := applyPass_ok s pass i s1 happ
    rw [hset]
    cases i with
    | zero =>
      rw [ht] at hg
      cases hg
      obtain ⟨hp1, hnr1⟩ := pass_keeps_first s pass t token1 htp hnr hr
      exact ⟨token1, get?_set_same s 0 t token1 ht, hp1, hnr1⟩
    | succ j =>
      refine ⟨t, ?_, htp, hnr⟩
      rw [get?_set_other s (j + 1) 0 token1 (by omega)]
      exact ht

theorem first_never_right_bound_witness :
    TokenList.runPasses [(Pass.InferPositional, 1), (Pass.InferRight, 0)]
        [mixedToken, secondWord] =
      Except.ok [{ argumentPosition := 0, ttype := TokenType.Semantic switch,
                   value := "-x", boundTo := none, semanticCandidates := [switch] },
                 secondWord.forcedOperand] ∧
    ∃ tf, List.get?
        [{ argumentPosition := 0, ttype := TokenType.Semantic switch,
           value := "-x", boundTo := none, semanticCandidates := [switch] },
          secondWord.forcedOperand] 0 = some tf ∧
      ∀ c, tf.ttype = TokenType.Semantic c → c.PosModel.Binding ≠ Binding.RIGHT :=
  ⟨by decide,
    first_never_right_bound [mixedToken, secondWord] _ mixedToken
      [(Pass.InferPositional, 1), (Pass.InferRight, 0)]
      (by decide) (by decide) (by decide) (by decide)⟩

/-! ## Candidates of resolved tokens -/

theorem InferLeft_ok_cases (tokens : TokenList) (token token1 : Token)
    (h : token.InferLeft tokens = Except.ok token1) :
    token1 = token ∨
      (token.ttype = TokenType.ContextFree ∧
        (token1 = token.forcedOperand ∨
          ∃ pred, Token.possiblyConvertToSemantic tokens
            { token with semanticCandidates :=
                (List.filter pred token.semanticCandidates) } = Except.ok token1)) := by
  cases htt : token.ttype with
  | Semantic t =>
    rw [InferLeft_Semantic tokens token t htt] at h
    cases h
    exact Or.inl rfl
  | ContextFree =>
    by_cases hp : 0 < token.argumentPosition
    · cases hi : tokens.index (token.argumentPosition - 1) with
      | error e =>
        unfold Token.InferLeft at h
        simp only [htt, gt_iff_lt, hp, if_true, hi, bind, Except.bind] at h
        cases h
      | ok left =>
        rw [InferLeft_unresolved tokens token left htt hp hi, htt] at h
        split at h
        · split at h
          · exact Or.inr ⟨rfl, Or.inr ⟨_, h⟩⟩
          · cases h
            exact Or.inr ⟨rfl, Or.inl rfl⟩
        · split at h
          · exact Or.inr ⟨rfl, Or.inr ⟨_, h⟩⟩
          · cases h
            exact Or.inl rfl
    · unfold Token.InferLeft at h
      simp only [htt, gt_iff_lt, hp, if_false] at h
      cases h
      exact Or.inl rfl

theorem possiblyConvertToSemantic_resolvedSingleton (tokens : TokenList)
    (token token1 : Token)
    (hpre : token.resolvedSingleton ∨ token.ttype = TokenType.ContextFree ∨
      ∃ c, token.semanticCandidates = [c])
    (h : token.possiblyConvertToSemantic tokens = Except.ok token1) :
    token1.resolvedSingleton := by
  obtain ⟨_, _, hcands, hcase⟩ := possiblyConvertToSemantic_ok_cases tokens token token1 h
  rcases hcase with ⟨heq, hns⟩ | ⟨c, hc, htt⟩
  · rw [heq]
    rcases hpre with hpre | hpre | ⟨c, hc⟩
    · exact hpre
    · intro t ht
      rw [hpre] at ht
      cases ht
    · exact absurd hc (hns c)
  · intro t ht
    rw [htt] at ht
    cases ht
    rw [hcands, hc]

theorem filtered_resolvedSingleton (tokens : TokenList) (token token1 : Token)
    (pred : SemanticTokenType → Bool)
    (hcf : token.ttype = TokenType.ContextFree)
    (h : Token.possiblyConvertToSemantic tokens
      { token with semanticCandidates :=
          (List.filter pred token.semanticCandidates) } = Except.ok token1) :
    token1.resolvedSingleton :=
  possiblyConvertToSemantic_resolvedSingleton tokens
    { token with semanticCandidates := (List.filter pred token.semanticCandidates) }
    token1 (Or.inr (Or.inl hcf)) h

theorem forcedOperand_resolvedSingleton (token : Token) :
    token.forcedOperand.resolvedSingleton := by
  intro t ht
  simp only [Token.forcedOperand, TokenType.Semantic.injEq] at ht
  rw [← ht]
  rfl

theorem pass_resolvedSingleton (tokens : TokenList) (pass : Pass)
    (token token1 : Token) (hpre : token.resolvedSingleton)
    (h : pass.run tokens token = Except.ok token1) : token1.resolvedSingleton := by
  cases pass with
  | InferLeft =>
    simp only [Pass.run] at h
    rcases InferLeft_ok_cases tokens token token1 h with h1 | ⟨hcf, h1 | ⟨pred, h1⟩⟩
    · rw [h1]; exact hpre
    · rw [h1]; exact forcedOperand_resolvedSingleton token
    · exact filtered_resolvedSingleton tokens token token1 pred hcf h1
  | InferRight =>
    simp only [Pass.run] at h
    rcases InferRight_ok_cases tokens token token1 h with h1 | ⟨hcf, h1⟩
    · rw [h1]; exact hpre
    · exact filtered_resolvedSingleton tokens token token1 _ hcf h1
  | InferPositional =>
    simp only [Pass.run] at h
    rcases InferPositional_ok_cases tokens token token1 h with h1 | h1
    · rw [h1]; exact hpre
    · rw [h1]; exact forcedOperand_resolvedSingleton token

theorem call_resolvedSingleton (tokens : TokenList) (call : Call)
    (token token1 : Token) (hpre : token.resolvedSingleton)
    (hguard : reduceTargetUnresolved call (some token) = true)
    (h : call.run tokens token = Except.ok token1) : token1.resolvedSingleton := by
  cases call with
  | pass p => exact pass_resolvedSingleton tokens p token token1 hpre h
  | reduceCandidates pred =>
    simp only [Call.run] at h
    simp only [reduceTargetUnresolved, decide_eq_true_eq] at hguard
    rw [reduceCandidates_eq] at h
    exact filtered_resolvedSingleton tokens token token1 pred hguard h
  | setCandidate t =>
    simp only [Call.run] at h
    exact possiblyConvertToSemantic_resolvedSingleton tokens
      { token with semanticCandidates := [t] } token1
      (Or.inr (Or.inr ⟨t, rfl⟩)) h

/-- C20, as the claim states it, fails: from the unresolved list `["file.txt"]`,
`InferPositional` resolves the token to `OPERAND` with candidates `[OPERAND]`,
and a `reduceCandidates` whose predicate rejects `OPERAND` then leaves it
resolved to `OPERAND` with no candidate. -/
theorem resolved_singleton_counterexample :
    loneWord.ttype = TokenType.ContextFree ∧
    TokenList.runCalls
        [(Call.pass Pass.InferPositional, 0),
          (Call.reduceCandidates (fun _ => false), 0)]
        [loneWord] =
      Except.ok [{ argumentPosition := 0, ttype := TokenType.Semantic OPERAND,
                   value := "file.txt", boundTo := none,
                   semanticCandidates := [] }] := by
  decide

/-- C20 (amended): starting from a list of unresolved tokens, after every
sequence of applications of `reduceCandidates`, `setCandidate`, `InferLeft`,
`InferRight` and `InferPositional` that completes and in which every
`reduceCandidates` is applied to a token unresolved at that time, every token
whose kind is `Semantic(t)` has candidates exactly `[t]`. -/
theorem resolved_singleton_invariant (steps : List (Call × Nat))
    (tokens final : TokenList)
    (hcf : ∀ token ∈ tokens, token.ttype = TokenType.ContextFree)
    (hguard : tokens.reducesOnlyUnresolved steps = true)
    (hrun : tokens.runCalls steps = Except.ok final) :
    ∀ token ∈ final, ∀ t, token.ttype = TokenType.Semantic t →
      token.semanticCandidates = [t] := by
  have hinit : ∀ token ∈ tokens, token.resolvedSingleton := by
    intro token hmem t ht
    rw [hcf token hmem] at ht
    cases ht
  clear hcf
  induction steps generalizing tokens with
  | nil =>
    simp only [TokenList.runCalls] at hrun
    cases hrun
    exact hinit
  | cons step rest ih =>
    obtain ⟨call, i⟩ := step
    simp only [TokenList.runCalls, bind, Except.bind] at hrun
    simp only [TokenList.reducesOnlyUnresolved, Bool.and_eq_true] at hguard
    obtain ⟨hg1, hg2⟩ := hguard
    cases happ : tokens.applyCall call i with
    | error e => rw [happ] at hrun; cases hrun
    | ok tokens1 =>
      rw [happ] at hrun hg2
      refine ih tokens1 hg2 hrun ?_
      unfold TokenList.applyCall at happ
      cases hget : tokens.get? i with
      | none => rw [hget] at happ; cases happ
      | some token =>
        rw [hget] at happ hg1
        dsimp only at happ
        cases hr : call.run tokens token with
        | error e => rw [hr] at happ; cases happ
        | ok token1 =>
          rw [hr] at happ
          cases happ
          intro tok hmem
          rcases List.mem_or_eq_of_mem_set hmem with h1 | h1
          · exact hinit tok h1
          · rw [h1]
            exact call_resolvedSingleton tokens call token token1
              (hinit token (List.get?_mem hget)) hg1 hr

theorem resolved_singleton_invariant_witness :
    TokenList.runCalls
        [(Call.reduceCandidates
            (fun c => decide (c.PosModel.Binding ≠ Binding.RIGHT)), 0),
          (Call.setCandidate OPERAND, 1), (Call.pass Pass.InferPositional, 1)]
        [mixedToken, secondWord] =
      Except.ok [{ argumentPosition := 0, ttype := TokenType.Semantic switch,
                   value := "-x", boundTo := none, semanticCandidates := [switch] },
                 secondWord.forcedOperand] ∧
    (∀ token ∈ ([{ argumentPosition := 0, ttype := TokenType.Semantic switch,
                   value := "-x", boundTo := none, semanticCandidates := [switch] },
                 secondWord.forcedOperand] : TokenList),
      ∀ t, token.ttype = TokenType.Semantic t → token.semanticCandidates = [t]) :=
  ⟨by decide,
    resolved_singleton_invariant
      [(Call.reduceCandidates
          (fun c => decide (c.PosModel.Binding ≠ Binding.RIGHT)), 0),
        (Call.setCandidate OPERAND, 1), (Call.pass Pass.InferPositional, 1)]
      [mixedToken, secondWord] _ (by decide) (by decide) (by decide)⟩

/-! ## A pass does not read the slot of its own token -/

theorem index_set_other (tokens : TokenList) (i : Nat) (b : Token) (j : Int)
    (hne : j ≠ (i : Int)) : TokenList.index (tokens.set i b) j = tokens.index j := by
  unfold TokenList.index
  by_cases hneg : j < 0
  · simp only [hneg, if_true]
  · simp only [hneg, if_false]
    rw [get?_set_other tokens i j.toNat b (by omega)]

theorem possiblyConvertToSemantic_set (tokens : TokenList) (i : Nat) (b tok : Token)
    (hpos : tok.argumentPosition = (i : Int)) :
    tok.possiblyConvertToSemantic (tokens.set i b) =
      tok.possiblyConvertToSemantic tokens := by
  by_cases hs : ∃ c, tok.semanticCandidates = [c]
  · obtain ⟨c, hc⟩ := hs
    cases hb : c.PosModel.Binding with
    | NONE =>
      rw [possiblyConvertToSemantic_NONE _ tok c hc hb,
        possiblyConvertToSemantic_NONE _ tok c hc hb]
    | LEFT =>
      rw [possiblyConvertToSemantic_LEFT _ tok c hc hb,
        possiblyConvertToSemantic_LEFT _ tok c hc hb,
        index_set_other tokens i b _ (by omega)]
    | RIGHT =>
      rw [possiblyConvertToSemantic_RIGHT _ tok c hc hb,
        possiblyConvertToSemantic_RIGHT _ tok c hc hb,
        index_set_other tokens i b _ (by omega)]
  · have hns : ∀ c, tok.semanticCandidates ≠ [c] := fun c hc => hs ⟨c, hc⟩
    rw [possiblyConvertToSemantic_not_single _ tok hns,
      possiblyConvertToSemantic_not_single _ tok hns]

theorem pass_run_set (tokens : TokenList) (pass : Pass) (i : Nat) (b token : Token)
    (hpos : token.argumentPosition = (i : Int)) :
    pass.run (tokens.set i b) token = pass.run tokens token := by
  have hl : token.argumentPosition - 1 ≠ (i : Int) := by omega
  have hr : token.argumentPosition + 1 ≠ (i : Int) := by omega
  cases pass with
  | InferLeft =>
    simp only [Pass.run, Token.InferLeft, Token.setCandidate, Token.reduceCandidates]
    rw [index_set_other tokens i b _ hl]
    simp (disch := exact hpos) only [possiblyConvertToSemantic_set]
  | InferRight =>
    simp only [Pass.run, Token.InferRight, Token.reduceCandidates, List.length_set]
    rw [index_set_other tokens i b _ hr]
    simp (disch := exact hpos) only [possiblyConvertToSemantic_set]
  | InferPositional =>
    simp only [Pass.run, Token.InferPositional, Token.setCandidate, List.length_set]
    simp (disch := exact hpos) only [possiblyConvertToSemantic_set]

theorem pass_run_position (tokens : TokenList) (pass : Pass) (token token1 : Token)
    (h : pass.run tokens token = Except.ok token1) :
    token1.argumentPosition = token.argumentPosition := by
  cases pass with
  | InferLeft =>
    simp only [Pass.run] at h
    rcases InferLeft_ok_cases tokens token token1 h with h1 | ⟨_, h1 | ⟨pred, h1⟩⟩
    · rw [h1]
    · rw [h1]; rfl
    · exact (possiblyConvertToSemantic_ok_cases tokens _ token1 h1).1
  | InferRight =>
    simp only [Pass.run] at h
    rcases InferRight_ok_cases tokens token token1 h with h1 | ⟨_, h1⟩
    · rw [h1]
    · exact (possiblyConvertToSemantic_ok_cases tokens _ token1 h1).1
  | InferPositional =>
    simp only [Pass.run] at h
    rcases InferPositional_ok_cases tokens token token1 h with h1 | h1
    · rw [h1]
    · rw [h1]; rfl

theorem applyPass_again (tokens tokens1 : TokenList) (pass : Pass) (i : Nat)
    (token : Token) (hget : tokens.get? i = some token)
    (hpos : token.argumentPosition = (i : Int))
    (happ : tokens.applyPass pass i = Except.ok tokens1)
    (hidem : ∀ token1, pass.run tokens token = Except.ok token1 →
      tokens1.get? i = some token1 → pass.run tokens token1 = Except.ok token1) :
    tokens1.applyPass pass i = Except.ok tokens1 := by
  obtain ⟨tok, token1, hg, hr, hset⟩ := applyPass_ok tokens pass i tokens1 happ
  rw [hget] at hg
  cases hg
  have hget1 : tokens1.get? i = some token1 := by
    rw [hset]
    exact get?_set_same tokens i token token1 hget
  have hpos1 : token1.argumentPosition = (i : Int) :=
    (pass_run_position tokens pass token token1 hr).trans hpos
  have hrun1 : pass.run tokens1 token1 = Except.ok token1 := by
    rw [hset, pass_run_set tokens pass i token1 token1 hpos1]
    exact hidem token1 hr hget1
  unfold TokenList.applyPass
  rw [hget1]
  dsimp only
  rw [hrun1]
  show Except.ok (tokens1.set i token1) = Except.ok tokens1
  rw [set_get?_same tokens1 i token1 hget1]

/-! ## Applying a pass twice -/

theorem ttype_cases (token : Token) :
    token.ttype = TokenType.ContextFree ∨ ∃ t, token.ttype = TokenType.Semantic t := by
  cases h : token.ttype with
  | ContextFree => exact Or.inl rfl
  | Semantic t => exact Or.inr ⟨t, rfl⟩

theorem filtered_again (tokens : TokenList) (token token1 : Token)
    (pred : SemanticTokenType → Bool)
    (h : Token.possiblyConvertToSemantic tokens
      { token with semanticCandidates :=
          (List.filter pred token.semanticCandidates) } = Except.ok token1)
    (heq : token1 = { token with semanticCandidates :=
      (List.filter pred token.semanticCandidates) }) :
    Token.possiblyConvertToSemantic tokens
      { token1 with semanticCandidates :=
          (List.filter pred token1.semanticCandidates) } = Except.ok token1 := by
  subst heq
  have hff : List.filter pred (List.filter pred token.semanticCandidates) =
      List.filter pred token.semanticCandidates := by
    simp [List.filter_filter]
  show Token.possiblyConvertToSemantic tokens
    { token with semanticCandidates :=
        (List.filter pred (List.filter pred token.semanticCandidates)) } = _
  rw [hff]
  exact h

theorem InferRight_again (tokens : TokenList) (token token1 : Token)
    (h : token.InferRight tokens = Except.ok token1) :
    token1.InferRight tokens = Except.ok token1 := by
  rcases ttype_cases token with htt | ⟨t, htt⟩
  · cases hopt : token.IsOption with
    | false =>
      have h0 := h
      rw [InferRight_not_option tokens token hopt] at h
      cases h
      exact h0
    | true =>
      cases hi : tokens.index (token.argumentPosition + 1) with
      | error e =>
        have h0 := h
        unfold Token.InferRight at h
        simp only [htt, hopt, Bool.true_and, hi, bind, Except.bind] at h
        split at h
        · cases h
        · cases h
          exact h0
      | ok right =>
        have h0 := h
        rw [InferRight_unresolved tokens token right htt hi, hopt] at h
        cases hone : right.IsBoundToOneOf [Binding.NONE, Binding.RIGHT] with
        | false =>
          rw [hone] at h
          cases h
          exact h0
        | true =>
          rw [hone] at h
          simp only [Bool.and_self, if_true] at h
          obtain ⟨hp1, _, _, hcase⟩ :=
            possiblyConvertToSemantic_ok_cases tokens _ token1 h
          rcases hcase with ⟨heq, _⟩ | ⟨c, _, htt1⟩
          · have htt1 : token1.ttype = TokenType.ContextFree := by
              rw [heq]; exact htt
            have hi1 : tokens.index (token1.argumentPosition + 1) =
                Except.ok right := by
              rw [hp1]; exact hi
            rw [InferRight_unresolved tokens token1 right htt1 hi1, hone]
            cases token1.IsOption with
            | false => rfl
            | true =>
              simp only [Bool.and_self, if_true]
              exact filtered_again tokens token token1 _ h heq
          · exact InferRight_Semantic tokens token1 c htt1
  · have h0 := h
    rw [InferRight_Semantic tokens token t htt] at h
    cases h
    exact h0

theorem InferPositional_forced (tokens : TokenList) (token : Token)
    (hlast : token.argumentPosition = (tokens.length : Int) - 1)
    (hopt : token.IsOption = false) :
    token.InferPositional tokens = Except.ok token.forcedOperand := by
  have hset := setCandidate_OPERAND tokens token
  simp only [Token.InferPositional, if_pos hlast, hopt, Bool.not_false, if_true]
  exact hset

theorem InferPositional_again (tokens : TokenList) (token token1 : Token)
    (h : token.InferPositional tokens = Except.ok token1) :
    token1.InferPositional tokens = Except.ok token1 := by
  have h0 := h
  unfold Token.InferPositional at h
  simp only at h
  split at h
  · rename_i hlast
    split at h
    · rw [setCandidate_OPERAND] at h
      cases h
      exact InferPositional_forced tokens token.forcedOperand hlast rfl
    · cases h
      exact h0
  · cases h
    exact h0

theorem InferLeft_again (tokens : TokenList) (token token1 : Token)
    (h : token.InferLeft tokens = Except.ok token1)
    (hne : token1.semanticCandidates ≠ []) :
    token1.InferLeft tokens = Except.ok token1 := by
  rcases ttype_cases token with htt | ⟨t, htt⟩
  · by_cases hp : 0 < token.argumentPosition
    · cases hi : tokens.index (token.argumentPosition - 1) with
      | error e =>
        unfold Token.InferLeft at h
        simp only [htt, gt_iff_lt, hp, if_true, hi, bind, Except.bind] at h
        cases h
      | ok left =>
        have h0 := h
        rw [InferLeft_unresolved tokens token left htt hp hi] at h
        cases hone : left.IsBoundToOneOf [Binding.NONE, Binding.LEFT] with
        | true =>
          rw [hone] at h
          simp only [if_true] at h
          cases hopt : token.IsOption with
          | false =>
            rw [hopt] at h
            cases h
            exact InferLeft_Semantic tokens _ OPERAND rfl
          | true =>
            rw [hopt] at h
            simp only [if_true] at h
            obtain ⟨hp1, _, hc1, hcase⟩ :=
              possiblyConvertToSemantic_ok_cases tokens _ token1 h
            rcases hcase with ⟨heq, _⟩ | ⟨c, _, htt1⟩
            · have htt1 : token1.ttype = TokenType.ContextFree := by
                rw [heq]; exact htt
              have hi1 : tokens.index (token1.argumentPosition - 1) =
                  Except.ok left := by
                rw [hp1]; exact hi
              have hopt1 : token1.IsOption = true := by
                refine (IsOption_unresolved token1 htt1).2 ⟨hne, ?_⟩
                intro c hc
                rw [hc1] at hc
                exact ((IsOption_unresolved token htt).1 hopt).2 c
                  (List.mem_filter.1 hc).1
              rw [InferLeft_unresolved tokens token1 left htt1 (by rw [hp1]; exact hp)
                hi1, hone, hopt1]
              simp only [if_true]
              exact filtered_again tokens token token1 _ h heq
            · exact InferLeft_Semantic tokens token1 c htt1
        | false =>
          rw [hone] at h
          simp only [Bool.false_eq_true, if_false] at h
          cases hb : left.IsBoundTo Binding.RIGHT with
          | false =>
            rw [hb] at h
            cases h
            exact h0
          | true =>
            rw [hb] at h
            simp only [if_true] at h
            obtain ⟨hp1, _, _, hcase⟩ :=
              possiblyConvertToSemantic_ok_cases tokens _ token1 h
            rcases hcase with ⟨heq, _⟩ | ⟨c, _, htt1⟩
            · have htt1 : token1.ttype = TokenType.ContextFree := by
                rw [heq]; exact htt
              have hi1 : tokens.index (token1.argumentPosition - 1) =
                  Except.ok left := by
                rw [hp1]; exact hi
              rw [InferLeft_unresolved tokens token1 left htt1 (by rw [hp1]; exact hp)
                hi1, hone, hb]
              simp only [Bool.false_eq_true, if_false, if_true]
              exact filtered_again tokens token token1 _ h heq
            · exact InferLeft_Semantic tokens token1 c htt1
    · have h0 := h
      unfold Token.InferLeft at h
      simp only [htt, gt_iff_lt, hp, if_false] at h
      cases h
      exact h0
  · have h0 := h
    rw [InferLeft_Semantic tokens token t htt] at h
    cases h
    exact h0

/-- C16, as the claim states it, fails for `InferLeft`: in `["-y", "-o"]`, where
`"-y"` is a switch and the only candidate of `"-o"` is an option bound `LEFT`, a
first `InferLeft` on `"-o"` removes that candidate and leaves `"-o"` unresolved
with none, and a second `InferLeft` resolves it to `OPERAND`. -/
theorem InferLeft_twice_counterexample :
    TokenList.applyPass [firstSwitch, secondLeftOption] Pass.InferLeft 1 =
      Except.ok [firstSwitch, Token.fresh 1 "-o" []] ∧
    TokenList.applyPass [firstSwitch, Token.fresh 1 "-o" []] Pass.InferLeft 1 =
      Except.ok [firstSwitch,
        { argumentPosition := 1, ttype := TokenType.Semantic OPERAND, value := "-o",
          boundTo := none, semanticCandidates := [OPERAND] }] ∧
    ([firstSwitch, Token.fresh 1 "-o" []] : TokenList) ≠
      [firstSwitch,
        { argumentPosition := 1, ttype := TokenType.Semantic OPERAND, value := "-o",
          boundTo := none, semanticCandidates := [OPERAND] }] := by
  decide

/-- C16 (amended): for a token stored in the slot of its position, if a first
`InferRight` completes, a second `InferRight` right after it completes and
leaves the list as the first left it; likewise for `InferPositional`; and
likewise for `InferLeft` provided the token has at least one candidate after the
first application. -/
theorem passes_idempotent_unless_exhausted (tokens tokens1 : TokenList) (i : Nat)
    (token : Token) (hget : tokens.get? i = some token)
    (hpos : token.argumentPosition = (i : Int)) :
    (tokens.applyPass Pass.InferRight i = Except.ok tokens1 →
      tokens1.applyPass Pass.InferRight i = Except.ok tokens1) ∧
    (tokens.applyPass Pass.InferPositional i = Except.ok tokens1 →
      tokens1.applyPass Pass.InferPositional i = Except.ok tokens1) ∧
    (tokens.applyPass Pass.InferLeft i = Except.ok tokens1 →
      (∀ token1, tokens1.get? i = some token1 → token1.semanticCandidates ≠ []) →
      tokens1.applyPass Pass.InferLeft i = Except.ok tokens1) := by
  refine ⟨?_, ?_, ?_⟩
  · intro happ
    exact applyPass_again tokens tokens1 Pass.InferRight i token hget hpos happ
      (fun token1 hr _ => InferRight_again tokens token token1 hr)
  · intro happ
    exact applyPass_again tokens tokens1 Pass.InferPositional i token hget hpos happ
      (fun token1 hr _ => InferPositional_again tokens token token1 hr)
  · intro happ hne
    exact applyPass_again tokens tokens1 Pass.InferLeft i token hget hpos happ
      (fun token1 hr hg1 => InferLeft_again tokens token token1 hr (hne token1 hg1))

theorem passes_idempotent_unless_exhausted_witness :
    TokenList.applyPass
        [{ argumentPosition := 0, ttype := TokenType.Semantic switch,
           value := "-x", boundTo := none, semanticCandidates := [switch] },
          secondWord] Pass.InferRight 0 =
      Except.ok [{ argumentPosition := 0, ttype := TokenType.Semantic switch,
                   value := "-x", boundTo := none, semanticCandidates := [switch] },
                 secondWord] ∧
    TokenList.applyPass [loneWord.forcedOperand] Pass.InferPositional 0 =
      Except.ok [loneWord.forcedOperand] ∧
    TokenList.applyPass [loneFlag, resolvedValue] Pass.InferLeft 1 =
      Except.ok [loneFlag, resolvedValue] :=
  ⟨(passes_idempotent_unless_exhausted [mixedToken, secondWord] _ 0 mixedToken
      (by decide) (by decide)).1 (by decide),
    (passes_idempotent_unless_exhausted [loneWord] _ 0 loneWord
      (by decide) (by decide)).2.1 (by decide),
    (passes_idempotent_unless_exhausted [loneFlag, freshValue] _ 1 freshValue
      (by decide) (by decide)).2.2 (by decide)
      (fun token1 h1 => by
        have h2 : token1 = resolvedValue := by
          have h3 : some resolvedValue = some token1 := h1
          exact (Option.some.inj h3).symm
        rw [h2]
        decide)⟩

end Argparse
